import Mathlib

/-!
# Vectorized equality probe (`vectorized_probe.cpp`)

A shallow embedding of `duckdb::VectorizedProbe_AVX2` (both bodies selected by
`__AVX2__`) and `duckdb::VectorizedProbe_NEON`.

Modelling conventions:

* `int32_t` keys are `Int` values; the only operation on keys is equality.
* A `const int32_t *` argument is a `List Int`; a read at an index outside the
  list is undefined behaviour in C++ and is the `none` result here.
* `size_t` indices and counters are `Nat`.  The indices that occur are bounded by
  `table_count`, which for an array that really exists in memory is far below
  `2^64`, so no `size_t` operation of the kernel wraps.
* `std::vector<size_t>::push_back x` is `fun v => v ++ [x]`.
* A 256-bit (128-bit) integer vector is the list of its eight (four) 32-bit lanes,
  lane 0 first.  Comparison results are lanes holding the unsigned bit pattern
  `0xFFFFFFFF` or `0`.
* An `int` mask is represented by its 32-bit two's-complement bit pattern, a
  `Nat` below `2^32`; shifts of `int` are taken modulo `2^32`.
* Each `for` loop is a function by recursion on a fuel argument that tests the
  loop condition of the source at every iteration; running out of fuel is `none`.
  The entry points supply `count + 1` units of fuel.
* `printf` output is recorded as a `Notice`; the elapsed wall-clock time of the
  AVX2 notice is not modelled.
-/

namespace duckdb

/-! ## Data model -/

/-- The mutable locals shared by the AVX2 and scalar bodies of
`VectorizedProbe_AVX2`: the caller's `matched_indices` vector and the
`total_matches` counter. -/
structure ProbeState where
  matched_indices : List Nat
  total_matches : Nat
deriving DecidableEq

/-- The statement pair `matched_indices.push_back(j); total_matches++;`. -/
def ProbeState.record (s : ProbeState) (j : Nat) : ProbeState :=
  { matched_indices := s.matched_indices ++ [j], total_matches := s.total_matches + 1 }

/-- Appending a whole list of indices, one `record` after another. -/
def ProbeState.recordAll (s : ProbeState) (l : List Nat) : ProbeState :=
  { matched_indices := s.matched_indices ++ l, total_matches := s.total_matches + l.length }

/-- The diagnostic line written by `printf`, with the arguments it is given. -/
inductive Notice where
  | simdAvx2 (total_matches : Nat)
  | scalar (total_matches : Nat)
  | neon (probe_count table_count : Nat)
deriving DecidableEq

/-- What a call leaves behind: the result vector and the diagnostic line. -/
structure ProbeResult where
  matched_indices : List Nat
  notice : Notice
deriving DecidableEq

/-! ## AVX2 intrinsics -/

/-- Intrinsic `_mm256_set1_epi32`: broadcast a 32-bit integer to all eight lanes. -/
def mm256_set1_epi32 (a : Int) : List Int :=
  List.replicate 8 a

/-- Intrinsic `_mm256_loadu_si256` applied to `mem + j`: the eight consecutive
32-bit elements `mem[j] .. mem[j+7]`; reading past the array is `none`. -/
def mm256_loadu_si256 (mem : List Int) (j : Nat) : Option (List Int) :=
  if j + 8 ≤ mem.length then some ((mem.drop j).take 8) else none

/-- Intrinsic `_mm256_cmpeq_epi32`: lane-wise equality, an equal lane becomes
`0xFFFFFFFF` and an unequal lane `0`. -/
def mm256_cmpeq_epi32 (a b : List Int) : List Nat :=
  List.zipWith (fun x y => if x = y then 0xFFFFFFFF else 0) a b

/-- The lane a comparison writes for a given truth value. -/
def laneOf (b : Bool) : Nat :=
  if b then 0xFFFFFFFF else 0

/-- The four bytes of a 32-bit lane, least significant first (little endian). -/
def laneBytes (lane : Nat) : List Nat :=
  [lane % 256, lane / 256 % 256, lane / 65536 % 256, lane / 16777216 % 256]

/-- Sum of `bit i * 2^(pos + i)` over the list `bits`. -/
def packBits : List Nat → Nat → Nat
  | [], _ => 0
  | b :: bs, pos => b * 2 ^ pos + packBits bs (pos + 1)

/-- Intrinsic `_mm256_movemask_epi8`: bit `n` of the result is the most
significant bit of byte `n` of the vector (byte `4 * k + b` is byte `b` of lane
`k`).  The result is the bit pattern of the returned `int`. -/
def mm256_movemask_epi8 (v : List Nat) : Nat :=
  packBits ((v.flatMap laneBytes).map (fun byte => byte / 128)) 0

/-- The condition `mask & (0xF << (k * 4))` of the lane-decoding loop, as a truth
value: the shift is an `int` shift, taken modulo `2^32`. -/
def laneTest (mask k : Nat) : Bool :=
  (mask &&& ((0xF <<< (k * 4)) % 2 ^ 32)) != 0

/-- The loop `for (int k = 0; k < 8; ++k)` of the AVX2 block body: record
`j + k` for every lane whose mask bits are set. -/
def avx2DecodeLanes (mask j : Nat) (s : ProbeState) : ProbeState :=
  (List.range 8).foldl (fun acc k => if laneTest mask k then acc.record (j + k) else acc) s

/-- One iteration of the AVX2 block loop at offset `j`: load, compare, take the
move-mask, and decode it when it is non-zero. -/
def avx2Block (probe_vec : List Int) (hash_table_keys : List Int) (j : Nat)
    (s : ProbeState) : Option ProbeState :=
  match mm256_loadu_si256 hash_table_keys j with
  | none => none
  | some table_vec =>
    let cmp := mm256_cmpeq_epi32 probe_vec table_vec
    let mask := mm256_movemask_epi8 cmp
    if mask != 0 then some (avx2DecodeLanes mask j s) else some s

/-- The block loop `for (size_t j = 0; j + 8 <= table_count; j += 8)`, started
at `j`. -/
def avx2BlockLoop (probe_vec : List Int) (hash_table_keys : List Int) (table_count : Nat) :
    Nat → Nat → ProbeState → Option ProbeState
  | 0, _, _ => none
  | fuel + 1, j, s =>
    if j + 8 ≤ table_count then
      match avx2Block probe_vec hash_table_keys j s with
      | none => none
      | some s' => avx2BlockLoop probe_vec hash_table_keys table_count fuel (j + 8) s'
    else some s

/-- The scalar tail `for (size_t j = table_count - (table_count % 8); j < table_count; ++j)`
of the AVX2 body, started at `j`. -/
def avx2TailLoop (probe_key : Int) (hash_table_keys : List Int) (table_count : Nat) :
    Nat → Nat → ProbeState → Option ProbeState
  | 0, _, _ => none
  | fuel + 1, j, s =>
    if j < table_count then
      match hash_table_keys[j]? with
      | none => none
      | some key =>
        avx2TailLoop probe_key hash_table_keys table_count fuel (j + 1)
          (if probe_key = key then s.record j else s)
    else some s

/-- The body of the outer loop of the AVX2 path for one probe key: broadcast,
block loop from `0`, scalar tail from `table_count - table_count % 8`. -/
def avx2ProbeKey (probe_key : Int) (hash_table_keys : List Int) (table_count : Nat)
    (s : ProbeState) : Option ProbeState :=
  let probe_vec := mm256_set1_epi32 probe_key
  match avx2BlockLoop probe_vec hash_table_keys table_count (table_count + 1) 0 s with
  | none => none
  | some s' =>
    avx2TailLoop probe_key hash_table_keys table_count (table_count + 1)
      (table_count - table_count % 8) s'

/-- The outer loop `for (size_t i = 0; i < probe_count; ++i)` of the AVX2 path,
started at `i`. -/
def avx2ProbeLoop (probe_keys : List Int) (probe_count : Nat) (hash_table_keys : List Int)
    (table_count : Nat) : Nat → Nat → ProbeState → Option ProbeState
  | 0, _, _ => none
  | fuel + 1, i, s =>
    if i < probe_count then
      match probe_keys[i]? with
      | none => none
      | some probe_key =>
        match avx2ProbeKey probe_key hash_table_keys table_count s with
        | none => none
        | some s' =>
          avx2ProbeLoop probe_keys probe_count hash_table_keys table_count fuel (i + 1) s'
    else some s

/-! ## Scalar fallback -/

/-- The inner loop `for (size_t j = 0; j < table_count; ++j)` of the scalar
fallback, started at `j`. -/
def scalarInnerLoop (probe_key : Int) (hash_table_keys : List Int) (table_count : Nat) :
    Nat → Nat → ProbeState → Option ProbeState
  | 0, _, _ => none
  | fuel + 1, j, s =>
    if j < table_count then
      match hash_table_keys[j]? with
      | none => none
      | some key =>
        scalarInnerLoop probe_key hash_table_keys table_count fuel (j + 1)
          (if probe_key = key then s.record j else s)
    else some s

/-- The body of the outer loop of the scalar fallback for one probe key. -/
def scalarProbeKey (probe_key : Int) (hash_table_keys : List Int) (table_count : Nat)
    (s : ProbeState) : Option ProbeState :=
  scalarInnerLoop probe_key hash_table_keys table_count (table_count + 1) 0 s

/-- The outer loop `for (size_t i = 0; i < probe_count; ++i)` of the scalar
fallback, started at `i`. -/
def scalarProbeLoop (probe_keys : List Int) (probe_count : Nat) (hash_table_keys : List Int)
    (table_count : Nat) : Nat → Nat → ProbeState → Option ProbeState
  | 0, _, _ => none
  | fuel + 1, i, s =>
    if i < probe_count then
      match probe_keys[i]? with
      | none => none
      | some probe_key =>
        match scalarProbeKey probe_key hash_table_keys table_count s with
        | none => none
        | some s' =>
          scalarProbeLoop probe_keys probe_count hash_table_keys table_count fuel (i + 1) s'
    else some s

/-- The function `VectorizedProbe_AVX2`.  The flag `avx2` says whether `__AVX2__`
is defined, which selects the body at compile time. -/
def VectorizedProbe_AVX2 (avx2 : Bool) (probe_keys : List Int) (probe_count : Nat)
    (hash_table_keys : List Int) (table_count : Nat) (matched_indices : List Nat) :
    Option ProbeResult :=
  let start : ProbeState := { matched_indices := matched_indices, total_matches := 0 }
  if avx2 then
    match avx2ProbeLoop probe_keys probe_count hash_table_keys table_count (probe_count + 1) 0
        start with
    | none => none
    | some s =>
      some { matched_indices := s.matched_indices, notice := Notice.simdAvx2 s.total_matches }
  else
    match scalarProbeLoop probe_keys probe_count hash_table_keys table_count (probe_count + 1) 0
        start with
    | none => none
    | some s =>
      some { matched_indices := s.matched_indices, notice := Notice.scalar s.total_matches }

/-! ## NEON -/

/-- Intrinsic `vdupq_n_s32`: broadcast a 32-bit integer to all four lanes. -/
def vdupq_n_s32 (a : Int) : List Int :=
  List.replicate 4 a

/-- Intrinsic `vld1q_s32` applied to `&mem[j]`: the four consecutive elements
`mem[j] .. mem[j+3]`; reading past the array is `none`. -/
def vld1q_s32 (mem : List Int) (j : Nat) : Option (List Int) :=
  if j + 4 ≤ mem.length then some ((mem.drop j).take 4) else none

/-- Intrinsic `vceqq_s32`: lane-wise equality, an equal lane becomes `0xFFFFFFFF`
and an unequal lane `0`. -/
def vceqq_s32 (a b : List Int) : List Nat :=
  List.zipWith (fun x y => if x = y then 0xFFFFFFFF else 0) a b

/-- Intrinsic `vst1q_u32` into `uint32_t result[4]`: the array holds the four
lanes in order. -/
def vst1q_u32 (v : List Nat) : List Nat :=
  v

/-- The loop `for (int k = 0; k < 4; ++k)` of the NEON block body: push `j + k`
for every `k` with `result[k] == 0xFFFFFFFF`. -/
def neonDecodeLanes (result : List Nat) (j : Nat) (matched_indices : List Nat) : List Nat :=
  (List.range 4).foldl
    (fun acc k => if result[k]? = some 0xFFFFFFFF then acc ++ [j + k] else acc) matched_indices

/-- One iteration of the NEON block loop at offset `j`. -/
def neonBlock (probe_vec : List Int) (hash_table_keys : List Int) (j : Nat)
    (matched_indices : List Nat) : Option (List Nat) :=
  match vld1q_s32 hash_table_keys j with
  | none => none
  | some table_vec =>
    let cmp := vceqq_s32 probe_vec table_vec
    let result := vst1q_u32 cmp
    some (neonDecodeLanes result j matched_indices)

/-- The block loop `for (; j + 4 <= table_count; j += 4)` of the NEON path,
started at `j`; it returns the final `j` together with the result vector. -/
def neonBlockLoop (probe_vec : List Int) (hash_table_keys : List Int) (table_count : Nat) :
    Nat → Nat → List Nat → Option (Nat × List Nat)
  | 0, _, _ => none
  | fuel + 1, j, m =>
    if j + 4 ≤ table_count then
      match neonBlock probe_vec hash_table_keys j m with
      | none => none
      | some m' => neonBlockLoop probe_vec hash_table_keys table_count fuel (j + 4) m'
    else some (j, m)

/-- The scalar tail `for (; j < table_count; ++j)` of the NEON path, started at
`j`. -/
def neonTailLoop (probe_key : Int) (hash_table_keys : List Int) (table_count : Nat) :
    Nat → Nat → List Nat → Option (List Nat)
  | 0, _, _ => none
  | fuel + 1, j, m =>
    if j < table_count then
      match hash_table_keys[j]? with
      | none => none
      | some key =>
        neonTailLoop probe_key hash_table_keys table_count fuel (j + 1)
          (if probe_key = key then m ++ [j] else m)
    else some m

/-- The body of the outer loop of the NEON path for one probe key: broadcast,
block loop from `j = 0`, scalar tail continuing from the block loop's `j`. -/
def neonProbeKey (probe_key : Int) (hash_table_keys : List Int) (table_count : Nat)
    (matched_indices : List Nat) : Option (List Nat) :=
  let probe_vec := vdupq_n_s32 probe_key
  match neonBlockLoop probe_vec hash_table_keys table_count (table_count + 1) 0
      matched_indices with
  | none => none
  | some (j, m) => neonTailLoop probe_key hash_table_keys table_count (table_count + 1) j m

/-- The outer loop `for (size_t i = 0; i < probe_count; ++i)` of the NEON path,
started at `i`. -/
def neonProbeLoop (probe_keys : List Int) (probe_count : Nat) (hash_table_keys : List Int)
    (table_count : Nat) : Nat → Nat → List Nat → Option (List Nat)
  | 0, _, _ => none
  | fuel + 1, i, m =>
    if i < probe_count then
      match probe_keys[i]? with
      | none => none
      | some probe_key =>
        match neonProbeKey probe_key hash_table_keys table_count m with
        | none => none
        | some m' =>
          neonProbeLoop probe_keys probe_count hash_table_keys table_count fuel (i + 1) m'
    else some m

/-- The function `VectorizedProbe_NEON` (present when `__ARM_NEON` is defined).
Its only `printf` runs before the loops and reports the two counts. -/
def VectorizedProbe_NEON (probe_keys : List Int) (probe_count : Nat)
    (hash_table_keys : List Int) (table_count : Nat) (matched_indices : List Nat) :
    Option ProbeResult :=
  let notice := Notice.neon probe_count table_count
  match neonProbeLoop probe_keys probe_count hash_table_keys table_count (probe_count + 1) 0
      matched_indices with
  | none => none
  | some m => some { matched_indices := m, notice := notice }

/-! ## Reference semantics and strategy selection -/

/-- The three strategy variants of the kernel. -/
inductive Strategy where
  | avx2
  | scalar
  | neon
deriving DecidableEq

/-- The result vector a call leaves under the given strategy (`none` when the
call reads outside an array). -/
def runProbe (st : Strategy) (probe_keys : List Int) (probe_count : Nat)
    (hash_table_keys : List Int) (table_count : Nat) (matched_indices : List Nat) :
    Option (List Nat) :=
  match st with
  | Strategy.avx2 =>
    (VectorizedProbe_AVX2 true probe_keys probe_count hash_table_keys table_count
      matched_indices).map ProbeResult.matched_indices
  | Strategy.scalar =>
    (VectorizedProbe_AVX2 false probe_keys probe_count hash_table_keys table_count
      matched_indices).map ProbeResult.matched_indices
  | Strategy.neon =>
    (VectorizedProbe_NEON probe_keys probe_count hash_table_keys table_count
      matched_indices).map ProbeResult.matched_indices

/-- The body of the outer loop under the given strategy, as a function on the
result vector: what processing one probe key does to `matched_indices`. -/
def probeKeyStep (st : Strategy) (probe_key : Int) (hash_table_keys : List Int)
    (table_count : Nat) (matched_indices : List Nat) : Option (List Nat) :=
  match st with
  | Strategy.avx2 =>
    (avx2ProbeKey probe_key hash_table_keys table_count
      { matched_indices := matched_indices, total_matches := 0 }).map
      ProbeState.matched_indices
  | Strategy.scalar =>
    (scalarProbeKey probe_key hash_table_keys table_count
      { matched_indices := matched_indices, total_matches := 0 }).map
      ProbeState.matched_indices
  | Strategy.neon => neonProbeKey probe_key hash_table_keys table_count matched_indices

/-- Specification: the ascending list of all build indices `j < table_count`
with `build_keys[j] == probe_key`. -/
def matchesOf (probe_key : Int) (build_keys : List Int) (table_count : Nat) : List Nat :=
  (List.range table_count).filter (fun j => build_keys[j]? = some probe_key)

/-- Specification: for each probe index `i = 0 .. probe_count - 1` in order, the
matches of `probe_keys[i]`. -/
def matchSegments (probe_keys : List Int) (probe_count : Nat) (build_keys : List Int)
    (table_count : Nat) : List (List Nat) :=
  (probe_keys.take probe_count).map (fun p => matchesOf p build_keys table_count)

/-- Specification: everything one call appends, the segments concatenated. -/
def allMatches (probe_keys : List Int) (probe_count : Nat) (build_keys : List Int)
    (table_count : Nat) : List Nat :=
  (matchSegments probe_keys probe_count build_keys table_count).flatten

/-- Specification: the build positions `j < table_count` whose key equals
`probe_keys[i]` for some `i < probe_count`, in ascending order. -/
def matchedPositions (probe_keys : List Int) (probe_count : Nat) (build_keys : List Int)
    (table_count : Nat) : List Nat :=
  (List.range table_count).filter
    (fun j => (probe_keys.take probe_count).any (fun p => build_keys[j]? = some p))

/-! ## Loop control, loop bodies and diagnostics -/

/-- The match count a diagnostic line reports through its `Total matches: %zu`
field; the NEON line `[NEON] Probing %zu probe keys vs %zu build keys` has no
such field. -/
def Notice.reportedMatches : Notice → Option Nat
  | Notice.simdAvx2 total_matches => some total_matches
  | Notice.scalar total_matches => some total_matches
  | Notice.neon _ _ => none

/-- Loop control of a block loop `for (; j + width <= table_count; j += width)`
(`width` is 8 in the AVX2 path and 4 in the NEON path), started at `j`: the
offsets at which the body runs, in order, and the value of `j` at which the
condition fails. -/
def blockOffsets (width table_count : Nat) : Nat → Nat → Option (List Nat × Nat)
  | 0, _ => none
  | fuel + 1, j =>
    if j + width ≤ table_count then
      match blockOffsets width table_count fuel (j + width) with
      | none => none
      | some (offs, stop) => some (j :: offs, stop)
    else some ([], j)

/-- Loop control of a scalar loop `for (; j < bound; ++j)`, started at `j`: the
indices at which the body runs, in order. -/
def scalarIndices (bound : Nat) : Nat → Nat → Option (List Nat)
  | 0, _ => none
  | fuel + 1, j =>
    if j < bound then
      match scalarIndices bound fuel (j + 1) with
      | none => none
      | some idx => some (j :: idx)
    else some []

/-- Running a loop body at the given indices, one after the other; a body that
fails ends the run. -/
def foldSteps {σ : Type} (body : Nat → σ → Option σ) : List Nat → σ → Option σ
  | [], s => some s
  | j :: js, s =>
    match body j s with
    | none => none
    | some s' => foldSteps body js s'

/-- The body of the scalar tail of the AVX2 path and of the inner loop of the
scalar fallback at index `j`: read `hash_table_keys[j]`, compare, record. -/
def scalarBody (probe_key : Int) (hash_table_keys : List Int) (j : Nat)
    (s : ProbeState) : Option ProbeState :=
  match hash_table_keys[j]? with
  | none => none
  | some key => some (if probe_key = key then s.record j else s)

/-- The body of an outer loop at probe index `i`: read `probe_keys[i]` and
process that key with `step`. -/
def probeBody {σ : Type} (step : Int → σ → Option σ) (probe_keys : List Int) (i : Nat)
    (s : σ) : Option σ :=
  match probe_keys[i]? with
  | none => none
  | some probe_key => step probe_key s

/-- Specification: the matching pairs `(i, j)` with `i < probe_count`,
`j < table_count` and `build_keys[j] == probe_keys[i]`, ordered by `i`, then by
`j`. -/
def matchPairs (probe_keys : List Int) (probe_count : Nat) (build_keys : List Int)
    (table_count : Nat) : List (Nat × Nat) :=
  (List.range probe_count).flatMap (fun i =>
    match probe_keys[i]? with
    | none => []
    | some p => (matchesOf p build_keys table_count).map (fun j => (i, j)))

/-! ## Loop lemmas -/

theorem recordAll_nil (s : ProbeState) : s.recordAll [] = s := by
  simp [ProbeState.recordAll]

theorem recordAll_append (s : ProbeState) (l₁ l₂ : List Nat) :
    (s.recordAll l₁).recordAll l₂ = s.recordAll (l₁ ++ l₂) := by
  simp [ProbeState.recordAll, Nat.add_assoc]

theorem record_eq_recordAll (s : ProbeState) (j : Nat) : s.record j = s.recordAll [j] := by
  simp [ProbeState.record, ProbeState.recordAll]

/-- A list index below the length reads the element. -/
theorem key_read (hk : List Int) (j : Nat) (h : j < hk.length) : hk[j]? = some hk[j] := by
  simp [h]

/-- Unfolding the candidate range by one index. -/
theorem filter_range_step (hk : List Int) (key : Int) (j tc : Nat) (h : j < tc) :
    (List.range' j (tc - j)).filter (fun x => hk[x]? = some key) =
      (if hk[j]? = some key then [j] else []) ++
        (List.range' (j + 1) (tc - (j + 1))).filter (fun x => hk[x]? = some key) := by
  have h1 : tc - j = (tc - (j + 1)) + 1 := by omega
  rw [h1, List.range'_succ, List.filter_cons]
  by_cases hx : hk[j]? = some key <;> simp [hx]

theorem avx2TailLoop_eq (key : Int) (hk : List Int) (tc : Nat) (h : tc ≤ hk.length) :
    ∀ (fuel j : Nat) (s : ProbeState), tc - j < fuel →
      avx2TailLoop key hk tc fuel j s =
        some (s.recordAll ((List.range' j (tc - j)).filter (fun x => hk[x]? = some key))) := by
  intro fuel
  induction fuel with
  | zero =>
    intro j s hf
    omega
  | succ n ih =>
    intro j s hf
    by_cases hj : j < tc
    · have hlen : j < hk.length := by omega
      rw [avx2TailLoop, if_pos hj, key_read hk j hlen]
      simp only []
      rw [ih (j + 1) _ (by omega), filter_range_step hk key j tc hj, key_read hk j hlen]
      by_cases hx : key = hk[j]
      · simp [hx, record_eq_recordAll, recordAll_append]
      · have hx' : ¬ hk[j] = key := fun e => hx e.symm
        simp [hx, hx']
    · have h0 : tc - j = 0 := by omega
      rw [avx2TailLoop, if_neg hj, h0]
      simp [recordAll_nil]

theorem scalarInnerLoop_eq (key : Int) (hk : List Int) (tc : Nat) (h : tc ≤ hk.length) :
    ∀ (fuel j : Nat) (s : ProbeState), tc - j < fuel →
      scalarInnerLoop key hk tc fuel j s =
        some (s.recordAll ((List.range' j (tc - j)).filter (fun x => hk[x]? = some key))) := by
  intro fuel
  induction fuel with
  | zero =>
    intro j s hf
    omega
  | succ n ih =>
    intro j s hf
    by_cases hj : j < tc
    · have hlen : j < hk.length := by omega
      rw [scalarInnerLoop, if_pos hj, key_read hk j hlen]
      simp only []
      rw [ih (j + 1) _ (by omega), filter_range_step hk key j tc hj, key_read hk j hlen]
      by_cases hx : key = hk[j]
      · simp [hx, record_eq_recordAll, recordAll_append]
      · have hx' : ¬ hk[j] = key := fun e => hx e.symm
        simp [hx, hx']
    · have h0 : tc - j = 0 := by omega
      rw [scalarInnerLoop, if_neg hj, h0]
      simp [recordAll_nil]

theorem neonTailLoop_eq (key : Int) (hk : List Int) (tc : Nat) (h : tc ≤ hk.length) :
    ∀ (fuel j : Nat) (m : List Nat), tc - j < fuel →
      neonTailLoop key hk tc fuel j m =
        some (m ++ (List.range' j (tc - j)).filter (fun x => hk[x]? = some key)) := by
  intro fuel
  induction fuel with
  | zero =>
    intro j m hf
    omega
  | succ n ih =>
    intro j m hf
    by_cases hj : j < tc
    · have hlen : j < hk.length := by omega
      rw [neonTailLoop, if_pos hj, key_read hk j hlen]
      simp only []
      rw [ih (j + 1) _ (by omega), filter_range_step hk key j tc hj, key_read hk j hlen]
      by_cases hx : key = hk[j]
      · simp [hx]
      · have hx' : ¬ hk[j] = key := fun e => hx e.symm
        simp [hx, hx']
    · have h0 : tc - j = 0 := by omega
      rw [neonTailLoop, if_neg hj, h0]
      simp

/-- Recording under a lane predicate, lane by lane, records the selected lanes
in order. -/
theorem foldl_record (p : Nat → Bool) (j : Nat) :
    ∀ (l : List Nat) (s : ProbeState),
      l.foldl (fun acc k => if p k then acc.record (j + k) else acc) s =
        s.recordAll ((l.filter p).map (fun k => j + k)) := by
  intro l
  induction l with
  | nil => intro s; simp [recordAll_nil]
  | cons k ks ih =>
    intro s
    rw [List.foldl_cons, ih]
    by_cases hk : p k
    · simp [hk, record_eq_recordAll, recordAll_append]
    · simp [hk]

theorem foldl_push (p : Nat → Prop) [DecidablePred p] (j : Nat) :
    ∀ (l : List Nat) (m : List Nat),
      l.foldl (fun acc k => if p k then acc ++ [j + k] else acc) m =
        m ++ (l.filter (fun k => decide (p k))).map (fun k => j + k) := by
  intro l
  induction l with
  | nil => intro m; simp
  | cons k ks ih =>
    intro m
    rw [List.foldl_cons, ih]
    by_cases hk : p k
    · simp [hk]
    · simp [hk]

/-- Comparing a broadcast key against a vector is a map over the vector. -/
theorem zipWith_replicate_key (f : Int → Int → Nat) (key : Int) :
    ∀ (n : Nat) (l : List Int), l.length ≤ n →
      List.zipWith f (List.replicate n key) l = l.map (f key) := by
  intro n
  induction n with
  | zero =>
    intro l hl
    have : l = [] := List.length_eq_zero.mp (by omega)
    subst this
    simp
  | succ n ih =>
    intro l hl
    cases l with
    | nil => simp
    | cons a as =>
      simp only [List.replicate_succ, List.zipWith_cons_cons, List.map_cons]
      rw [ih as (by simpa using hl)]

/-- The move-mask of a comparison result decodes lane by lane to the
comparison's truth values, and is zero only when no lane matched. -/
theorem movemask_decode :
    ∀ b0 b1 b2 b3 b4 b5 b6 b7 : Bool,
      (List.range 8).map
          (laneTest (mm256_movemask_epi8
            [laneOf b0, laneOf b1, laneOf b2, laneOf b3, laneOf b4, laneOf b5, laneOf b6,
              laneOf b7])) =
        [b0, b1, b2, b3, b4, b5, b6, b7] ∧
      ((mm256_movemask_epi8
          [laneOf b0, laneOf b1, laneOf b2, laneOf b3, laneOf b4, laneOf b5, laneOf b6,
            laneOf b7] != 0) =
        (b0 || b1 || b2 || b3 || b4 || b5 || b6 || b7)) := by
  decide

theorem length_eight (l : List Int) (h : l.length = 8) :
    ∃ a0 a1 a2 a3 a4 a5 a6 a7, l = [a0, a1, a2, a3, a4, a5, a6, a7] := by
  match l, h with
  | [a0, a1, a2, a3, a4, a5, a6, a7], _ => exact ⟨a0, a1, a2, a3, a4, a5, a6, a7, rfl⟩

theorem laneTest_zero (k : Nat) : laneTest 0 k = false := by
  simp [laneTest]

/-- Lane `k` of a loaded block is element `j + k` of the array. -/
theorem block_lane (hk : List Int) (j n k : Nat) (hkn : k < n) :
    ((hk.drop j).take n)[k]? = hk[j + k]? := by
  rw [List.getElem?_take_of_lt hkn, List.getElem?_drop]

/-- The lane test on the move-mask of a comparison against a loaded block is the
scalar equality test on the corresponding array element. -/
theorem laneTest_block (key : Int) (hk : List Int) (j : Nat) (h : j + 8 ≤ hk.length)
    (k : Nat) (hk8 : k < 8) :
    laneTest (mm256_movemask_epi8
        (mm256_cmpeq_epi32 (mm256_set1_epi32 key) ((hk.drop j).take 8))) k =
      decide (hk[j + k]? = some key) := by
  have hlen : ((hk.drop j).take 8).length = 8 := by
    simp [List.length_take, List.length_drop]; omega
  have hlane := block_lane hk j 8 k hk8
  obtain ⟨a0, a1, a2, a3, a4, a5, a6, a7, htv⟩ := length_eight _ hlen
  rw [htv] at hlane ⊢
  have hcmp : mm256_cmpeq_epi32 (mm256_set1_epi32 key) [a0, a1, a2, a3, a4, a5, a6, a7] =
      [laneOf (decide (key = a0)), laneOf (decide (key = a1)), laneOf (decide (key = a2)),
        laneOf (decide (key = a3)), laneOf (decide (key = a4)), laneOf (decide (key = a5)),
        laneOf (decide (key = a6)), laneOf (decide (key = a7))] := by
    simp [mm256_cmpeq_epi32, mm256_set1_epi32, List.replicate, laneOf]
  rw [hcmp]
  have hdec := (movemask_decode (decide (key = a0)) (decide (key = a1)) (decide (key = a2))
    (decide (key = a3)) (decide (key = a4)) (decide (key = a5)) (decide (key = a6))
    (decide (key = a7))).1
  have hget := congrArg (fun l => l[k]?) hdec
  simp only [List.getElem?_map, List.getElem?_range hk8, Option.map_some'] at hget
  rw [← hlane]
  have hcases : k = 0 ∨ k = 1 ∨ k = 2 ∨ k = 3 ∨ k = 4 ∨ k = 5 ∨ k = 6 ∨ k = 7 := by
    omega
  rcases hcases with rfl | rfl | rfl | rfl | rfl | rfl | rfl | rfl <;>
    · simp only [List.getElem?_cons_zero, List.getElem?_cons_succ, Option.some.injEq] at hget ⊢
      rw [hget]
      exact decide_eq_decide.mpr eq_comm

theorem range'_split (a m n : Nat) :
    List.range' a (m + n) = List.range' a m ++ List.range' (a + m) n := by
  have := List.range'_append a m n 1
  simp only [Nat.one_mul] at this
  rw [this, Nat.add_comm]

/-- Filtering the block `j .. j + n - 1` through a lane-indexed test. -/
theorem filter_block (p : Nat → Bool) (q : Nat → Bool) (j n : Nat)
    (hpq : ∀ k, k < n → p k = q (j + k)) :
    ((List.range n).filter p).map (fun k => j + k) = (List.range' j n).filter q := by
  have hr : List.range' j n = (List.range n).map (fun k => j + k) := by
    rw [List.range_eq_range']
    simp [List.map_add_range']
  rw [hr, List.filter_map]
  congr 1
  apply List.filter_congr
  intro k hk
  exact hpq k (List.mem_range.mp hk)

theorem avx2Block_eq (key : Int) (hk : List Int) (j : Nat) (s : ProbeState)
    (h : j + 8 ≤ hk.length) :
    avx2Block (mm256_set1_epi32 key) hk j s =
      some (s.recordAll ((List.range' j 8).filter (fun x => hk[x]? = some key))) := by
  have hfil := filter_block
    (laneTest (mm256_movemask_epi8
      (mm256_cmpeq_epi32 (mm256_set1_epi32 key) ((hk.drop j).take 8))))
    (fun x => decide (hk[x]? = some key)) j 8 (fun k hk8 => laneTest_block key hk j h k hk8)
  simp only [avx2Block, mm256_loadu_si256, if_pos h, avx2DecodeLanes, foldl_record]
  rw [hfil]
  split
  · rfl
  · rename_i hmask
    have hz : mm256_movemask_epi8
        (mm256_cmpeq_epi32 (mm256_set1_epi32 key) ((hk.drop j).take 8)) = 0 := by
      simpa using hmask
    rw [hz] at hfil
    rw [← hfil]
    have hnil : List.filter (laneTest 0) (List.range 8) = [] := by
      rw [List.filter_eq_nil_iff]
      intro k _
      simp [laneTest_zero]
    simp [hnil, recordAll_nil]

theorem avx2BlockLoop_eq (key : Int) (hk : List Int) (tc : Nat) (h : tc ≤ hk.length) :
    ∀ (fuel j : Nat) (s : ProbeState), (tc - j) / 8 < fuel →
      avx2BlockLoop (mm256_set1_epi32 key) hk tc fuel j s =
        some (s.recordAll
          ((List.range' j (8 * ((tc - j) / 8))).filter (fun x => hk[x]? = some key))) := by
  intro fuel
  induction fuel with
  | zero =>
    intro j s hf
    omega
  | succ n ih =>
    intro j s hf
    by_cases hj : j + 8 ≤ tc
    · have hq : (tc - j) / 8 = (tc - (j + 8)) / 8 + 1 := by omega
      rw [avx2BlockLoop, if_pos hj, avx2Block_eq key hk j s (by omega)]
      simp only []
      rw [ih (j + 8) _ (by omega), recordAll_append, ← List.filter_append, hq]
      rw [← range'_split, Nat.mul_add, Nat.mul_one, Nat.add_comm]
    · have hq : (tc - j) / 8 = 0 := by omega
      rw [avx2BlockLoop, if_neg hj, hq]
      simp [recordAll_nil]

theorem matchesOf_split (key : Int) (hk : List Int) (tc w : Nat) :
    matchesOf key hk tc =
      (List.range' 0 (w * (tc / w))).filter (fun x => hk[x]? = some key) ++
        (List.range' (w * (tc / w)) (tc - w * (tc / w))).filter (fun x => hk[x]? = some key) := by
  have hle : w * (tc / w) ≤ tc := Nat.mul_div_le tc w
  have := range'_split 0 (w * (tc / w)) (tc - w * (tc / w))
  simp only [Nat.zero_add] at this
  rw [← List.filter_append, ← this, matchesOf, List.range_eq_range']
  congr 2
  omega

theorem avx2ProbeKey_eq (key : Int) (hk : List Int) (tc : Nat) (s : ProbeState)
    (h : tc ≤ hk.length) :
    avx2ProbeKey key hk tc s = some (s.recordAll (matchesOf key hk tc)) := by
  have htail : tc - tc % 8 = 8 * (tc / 8) := by omega
  have hblock := avx2BlockLoop_eq key hk tc h (tc + 1) 0 s (by omega)
  simp only [Nat.sub_zero] at hblock
  simp only [avx2ProbeKey, hblock, htail]
  rw [avx2TailLoop_eq key hk tc h (tc + 1) _ _ (by omega), recordAll_append,
    matchesOf_split key hk tc 8]

theorem scalarProbeKey_eq (key : Int) (hk : List Int) (tc : Nat) (s : ProbeState)
    (h : tc ≤ hk.length) :
    scalarProbeKey key hk tc s = some (s.recordAll (matchesOf key hk tc)) := by
  rw [scalarProbeKey, scalarInnerLoop_eq key hk tc h (tc + 1) 0 s (by omega), matchesOf,
    List.range_eq_range']
  simp

/-- The stored NEON comparison lane `k` is all-ones exactly when the array
element `j + k` equals the probe key. -/
theorem neonLane_block (key : Int) (hk : List Int) (j : Nat) (h : j + 4 ≤ hk.length)
    (k : Nat) (hk4 : k < 4) :
    decide ((vst1q_u32 (vceqq_s32 (vdupq_n_s32 key) ((hk.drop j).take 4)))[k]? =
        some 0xFFFFFFFF) =
      decide (hk[j + k]? = some key) := by
  have hlen : ((hk.drop j).take 4).length ≤ 4 := by simp [List.length_take]
  have hjk : j + k < hk.length := by omega
  rw [vst1q_u32, vceqq_s32, vdupq_n_s32, zipWith_replicate_key _ key 4 _ hlen,
    List.getElem?_map, block_lane hk j 4 k hk4, key_read hk (j + k) hjk]
  apply decide_eq_decide.mpr
  by_cases hx : key = hk[j + k]
  · simp [hx]
  · have hx' : ¬ hk[j + k] = key := fun e => hx e.symm
    simp [hx, hx']

theorem neonBlock_eq (key : Int) (hk : List Int) (j : Nat) (m : List Nat)
    (h : j + 4 ≤ hk.length) :
    neonBlock (vdupq_n_s32 key) hk j m =
      some (m ++ (List.range' j 4).filter (fun x => hk[x]? = some key)) := by
  have hfil := filter_block
    (fun k => decide ((vst1q_u32 (vceqq_s32 (vdupq_n_s32 key) ((hk.drop j).take 4)))[k]? =
      some 0xFFFFFFFF))
    (fun x => decide (hk[x]? = some key)) j 4 (fun k hk4 => neonLane_block key hk j h k hk4)
  simp only [neonBlock, vld1q_s32, if_pos h, neonDecodeLanes]
  rw [foldl_push, hfil]

theorem neonBlockLoop_eq (key : Int) (hk : List Int) (tc : Nat) (h : tc ≤ hk.length) :
    ∀ (fuel j : Nat) (m : List Nat), (tc - j) / 4 < fuel →
      neonBlockLoop (vdupq_n_s32 key) hk tc fuel j m =
        some (j + 4 * ((tc - j) / 4),
          m ++ (List.range' j (4 * ((tc - j) / 4))).filter (fun x => hk[x]? = some key)) := by
  intro fuel
  induction fuel with
  | zero =>
    intro j m hf
    omega
  | succ n ih =>
    intro j m hf
    by_cases hj : j + 4 ≤ tc
    · have hq : (tc - j) / 4 = (tc - (j + 4)) / 4 + 1 := by omega
      rw [neonBlockLoop, if_pos hj, neonBlock_eq key hk j m (by omega)]
      simp only []
      rw [ih (j + 4) _ (by omega), List.append_assoc, ← List.filter_append, hq,
        ← range'_split, Nat.mul_add, Nat.mul_one, Nat.add_assoc, Nat.add_comm 4]
    · have hq : (tc - j) / 4 = 0 := by omega
      rw [neonBlockLoop, if_neg hj, hq]
      simp

theorem neonProbeKey_eq (key : Int) (hk : List Int) (tc : Nat) (m : List Nat)
    (h : tc ≤ hk.length) :
    neonProbeKey key hk tc m = some (m ++ matchesOf key hk tc) := by
  have hblock := neonBlockLoop_eq key hk tc h (tc + 1) 0 m (by omega)
  simp only [Nat.sub_zero, Nat.zero_add] at hblock
  simp only [neonProbeKey, hblock]
  rw [neonTailLoop_eq key hk tc h (tc + 1) _ _ (by omega), List.append_assoc,
    matchesOf_split key hk tc 4]

/-- The probe keys still to be processed when the outer loop is at index `i`. -/
theorem take_drop_step (pk : List Int) (pc i : Nat) (hpc : pc ≤ pk.length) (hi : i < pc) :
    (pk.take pc).drop i = pk[i] :: (pk.take pc).drop (i + 1) := by
  have hlt : i < (pk.take pc).length := by simp [List.length_take]; omega
  rw [List.drop_eq_getElem_cons hlt]
  simp

theorem take_drop_done (pk : List Int) (pc i : Nat) (hi : ¬ i < pc) :
    (pk.take pc).drop i = [] := by
  apply List.drop_eq_nil_of_le
  simp [List.length_take]
  omega

theorem avx2ProbeLoop_eq (pk : List Int) (pc : Nat) (hk : List Int) (tc : Nat)
    (hpc : pc ≤ pk.length) (htc : tc ≤ hk.length) :
    ∀ (fuel i : Nat) (s : ProbeState), pc - i < fuel →
      avx2ProbeLoop pk pc hk tc fuel i s =
        some (s.recordAll
          (((pk.take pc).drop i).map (fun p => matchesOf p hk tc)).flatten) := by
  intro fuel
  induction fuel with
  | zero =>
    intro i s hf
    omega
  | succ n ih =>
    intro i s hf
    by_cases hi : i < pc
    · rw [avx2ProbeLoop, if_pos hi, key_read pk i (by omega)]
      simp only [avx2ProbeKey_eq _ hk tc s htc]
      rw [ih (i + 1) _ (by omega), recordAll_append, take_drop_step pk pc i hpc hi]
      simp
    · rw [avx2ProbeLoop, if_neg hi, take_drop_done pk pc i hi]
      simp [recordAll_nil]

theorem scalarProbeLoop_eq (pk : List Int) (pc : Nat) (hk : List Int) (tc : Nat)
    (hpc : pc ≤ pk.length) (htc : tc ≤ hk.length) :
    ∀ (fuel i : Nat) (s : ProbeState), pc - i < fuel →
      scalarProbeLoop pk pc hk tc fuel i s =
        some (s.recordAll
          (((pk.take pc).drop i).map (fun p => matchesOf p hk tc)).flatten) := by
  intro fuel
  induction fuel with
  | zero =>
    intro i s hf
    omega
  | succ n ih =>
    intro i s hf
    by_cases hi : i < pc
    · rw [scalarProbeLoop, if_pos hi, key_read pk i (by omega)]
      simp only [scalarProbeKey_eq _ hk tc s htc]
      rw [ih (i + 1) _ (by omega), recordAll_append, take_drop_step pk pc i hpc hi]
      simp
    · rw [scalarProbeLoop, if_neg hi, take_drop_done pk pc i hi]
      simp [recordAll_nil]

theorem neonProbeLoop_eq (pk : List Int) (pc : Nat) (hk : List Int) (tc : Nat)
    (hpc : pc ≤ pk.length) (htc : tc ≤ hk.length) :
    ∀ (fuel i : Nat) (m : List Nat), pc - i < fuel →
      neonProbeLoop pk pc hk tc fuel i m =
        some (m ++ (((pk.take pc).drop i).map (fun p => matchesOf p hk tc)).flatten) := by
  intro fuel
  induction fuel with
  | zero =>
    intro i m hf
    omega
  | succ n ih =>
    intro i m hf
    by_cases hi : i < pc
    · rw [neonProbeLoop, if_pos hi, key_read pk i (by omega)]
      simp only [neonProbeKey_eq _ hk tc m htc]
      rw [ih (i + 1) _ (by omega), take_drop_step pk pc i hpc hi]
      simp
    · rw [neonProbeLoop, if_neg hi, take_drop_done pk pc i hi]
      simp

/-- The AVX2 body on well-formed input: the result vector and the notice. -/
theorem VectorizedProbe_AVX2_simd_eq (pk : List Int) (pc : Nat) (hk : List Int) (tc : Nat)
    (r : List Nat) (hpc : pc ≤ pk.length) (htc : tc ≤ hk.length) :
    VectorizedProbe_AVX2 true pk pc hk tc r =
      some { matched_indices := r ++ allMatches pk pc hk tc,
             notice := Notice.simdAvx2 (allMatches pk pc hk tc).length } := by
  simp [VectorizedProbe_AVX2, avx2ProbeLoop_eq pk pc hk tc hpc htc (pc + 1) 0 _ (by omega),
    ProbeState.recordAll, allMatches, matchSegments]

/-- The scalar body on well-formed input: the result vector and the notice. -/
theorem VectorizedProbe_AVX2_scalar_eq (pk : List Int) (pc : Nat) (hk : List Int) (tc : Nat)
    (r : List Nat) (hpc : pc ≤ pk.length) (htc : tc ≤ hk.length) :
    VectorizedProbe_AVX2 false pk pc hk tc r =
      some { matched_indices := r ++ allMatches pk pc hk tc,
             notice := Notice.scalar (allMatches pk pc hk tc).length } := by
  simp [VectorizedProbe_AVX2, scalarProbeLoop_eq pk pc hk tc hpc htc (pc + 1) 0 _ (by omega),
    ProbeState.recordAll, allMatches, matchSegments]

/-- The NEON function on well-formed input: the result vector and the notice. -/
theorem VectorizedProbe_NEON_eq (pk : List Int) (pc : Nat) (hk : List Int) (tc : Nat)
    (r : List Nat) (hpc : pc ≤ pk.length) (htc : tc ≤ hk.length) :
    VectorizedProbe_NEON pk pc hk tc r =
      some { matched_indices := r ++ allMatches pk pc hk tc,
             notice := Notice.neon pc tc } := by
  simp [VectorizedProbe_NEON, neonProbeLoop_eq pk pc hk tc hpc htc (pc + 1) 0 _ (by omega),
    allMatches, matchSegments]

/-- Every strategy, on well-formed input, leaves the initial result vector
followed by the reference matches. -/
theorem runProbe_eq (st : Strategy) (pk : List Int) (pc : Nat) (hk : List Int) (tc : Nat)
    (r : List Nat) (hpc : pc ≤ pk.length) (htc : tc ≤ hk.length) :
    runProbe st pk pc hk tc r = some (r ++ allMatches pk pc hk tc) := by
  cases st
  · simp [runProbe, VectorizedProbe_AVX2_simd_eq pk pc hk tc r hpc htc]
  · simp [runProbe, VectorizedProbe_AVX2_scalar_eq pk pc hk tc r hpc htc]
  · simp [runProbe, VectorizedProbe_NEON_eq pk pc hk tc r hpc htc]

/-- Processing one probe key, in every strategy, appends the reference matches of
that key. -/
theorem probeKeyStep_eq (st : Strategy) (key : Int) (hk : List Int) (tc : Nat)
    (m : List Nat) (htc : tc ≤ hk.length) :
    probeKeyStep st key hk tc m = some (m ++ matchesOf key hk tc) := by
  cases st
  · simp [probeKeyStep, avx2ProbeKey_eq key hk tc _ htc, ProbeState.recordAll]
  · simp [probeKeyStep, scalarProbeKey_eq key hk tc _ htc, ProbeState.recordAll]
  · simp [probeKeyStep, neonProbeKey_eq key hk tc m htc]

/-! ## Properties of the reference semantics -/

theorem mem_matchesOf (key : Int) (hk : List Int) (tc j : Nat) :
    j ∈ matchesOf key hk tc ↔ j < tc ∧ hk[j]? = some key := by
  simp [matchesOf]

theorem matchesOf_pairwise (key : Int) (hk : List Int) (tc : Nat) :
    (matchesOf key hk tc).Pairwise (fun a b => a < b) := by
  exact List.Pairwise.filter _ (List.pairwise_lt_range tc)

theorem matchSegments_length (pk : List Int) (pc : Nat) (hk : List Int) (tc : Nat)
    (hpc : pc ≤ pk.length) : (matchSegments pk pc hk tc).length = pc := by
  simp [matchSegments, List.length_take, hpc]

theorem matchSegments_getElem (pk : List Int) (pc : Nat) (hk : List Int) (tc : Nat)
    (i : Nat) (hi : i < pc) :
    (matchSegments pk pc hk tc)[i]? = (pk[i]?).map (fun p => matchesOf p hk tc) := by
  simp [matchSegments, List.getElem?_take_of_lt hi]

theorem matchSegments_take (pk : List Int) (pc : Nat) (hk : List Int) (tc : Nat)
    (i : Nat) (hi : i ≤ pc) :
    (matchSegments pk pc hk tc).take i = matchSegments pk i hk tc := by
  simp [matchSegments, ← List.map_take, List.take_take, Nat.min_eq_left hi]

theorem allMatches_succ (pk : List Int) (hk : List Int) (tc : Nat) (i : Nat)
    (hi : i < pk.length) :
    allMatches pk (i + 1) hk tc = allMatches pk i hk tc ++ matchesOf pk[i] hk tc := by
  simp only [allMatches, matchSegments]
  rw [List.take_succ, key_read pk i hi]
  simp only [Option.toList, List.map_append, List.flatten_append, List.map_cons, List.map_nil,
    List.flatten_cons, List.flatten_nil, List.append_nil]

theorem allMatches_split (pk : List Int) (pc : Nat) (hk : List Int) (tc : Nat) (i : Nat)
    (hi : i ≤ pc) :
    allMatches pk pc hk tc =
      allMatches pk i hk tc ++
        (((pk.take pc).drop i).map (fun p => matchesOf p hk tc)).flatten := by
  have h1 : pk.take pc = (pk.take pc).take i ++ (pk.take pc).drop i :=
    (List.take_append_drop i (pk.take pc)).symm
  have h2 : (pk.take pc).take i = pk.take i := by
    rw [List.take_take, Nat.min_eq_left hi]
  rw [h2] at h1
  simp only [allMatches, matchSegments]
  rw [← List.flatten_append, ← List.map_append, ← h1]

/-- The reference result written index by index: for each probe index in order,
the ascending build indices whose key equals that probe key. -/
theorem allMatches_eq_range (pk : List Int) (pc : Nat) (hk : List Int) (tc : Nat)
    (hpc : pc ≤ pk.length) :
    allMatches pk pc hk tc =
      ((List.range pc).map
        (fun i => (List.range tc).filter (fun j => hk[j]? = pk[i]?))).flatten := by
  induction pc with
  | zero => simp [allMatches, matchSegments]
  | succ n ih =>
    have hn : n < pk.length := by omega
    rw [allMatches_succ pk hk tc n hn, ih (by omega), List.range_succ, List.map_append,
      List.flatten_append]
    simp only [List.map_cons, List.map_nil, List.flatten_cons, List.flatten_nil,
      List.append_nil]
    rw [key_read pk n hn]
    rfl

theorem mem_allMatches_lt (pk : List Int) (pc : Nat) (hk : List Int) (tc : Nat) (x : Nat)
    (hx : x ∈ allMatches pk pc hk tc) : x < tc := by
  simp only [allMatches, matchSegments, List.mem_flatten, List.mem_map] at hx
  obtain ⟨seg, ⟨p, _, rfl⟩, hmem⟩ := hx
  exact ((mem_matchesOf p hk tc x).mp hmem).1

/-- Counting under a disjunction of two tests that never hold together. -/
theorem length_filter_or (xs : List Nat) (p q : Nat → Bool)
    (h : ∀ x, x ∈ xs → ¬ (p x = true ∧ q x = true)) :
    (xs.filter (fun x => p x || q x)).length = (xs.filter p).length + (xs.filter q).length := by
  induction xs with
  | nil => simp
  | cons a as ih =>
    have ih' := ih (fun x hx => h x (List.mem_cons_of_mem a hx))
    have ha := h a (List.mem_cons_self a as)
    cases hp : p a <;> cases hq : q a <;> simp_all [List.filter_cons] <;> omega

theorem length_filter_or_le (xs : List Nat) (p q : Nat → Bool) :
    (xs.filter (fun x => p x || q x)).length ≤ (xs.filter p).length + (xs.filter q).length := by
  induction xs with
  | nil => simp
  | cons a as ih =>
    cases hp : p a <;> cases hq : q a <;> simp_all [List.filter_cons] <;> omega

/-- Every matching build position is appended at least once. -/
theorem length_segments_ge (hk : List Int) (tc : Nat) :
    ∀ l : List Int,
      ((List.range tc).filter (fun j => l.any (fun p => hk[j]? = some p))).length ≤
        ((l.map (fun p => matchesOf p hk tc)).flatten).length := by
  intro l
  induction l with
  | nil => simp
  | cons p ps ih =>
    simp only [List.map_cons, List.flatten_cons, List.length_append, List.any_cons]
    have hor := length_filter_or_le (List.range tc) (fun j => decide (hk[j]? = some p))
      (fun j => ps.any (fun p => hk[j]? = some p))
    have hm : (matchesOf p hk tc).length =
        ((List.range tc).filter (fun j => decide (hk[j]? = some p))).length := rfl
    omega

/-- With pairwise distinct probe keys, every matching build position is appended
once. -/
theorem length_segments_nodup (hk : List Int) (tc : Nat) :
    ∀ l : List Int, l.Nodup →
      ((l.map (fun p => matchesOf p hk tc)).flatten).length =
        ((List.range tc).filter (fun j => l.any (fun p => hk[j]? = some p))).length := by
  intro l
  induction l with
  | nil => intro _; simp
  | cons p ps ih =>
    intro hnd
    have hp : p ∉ ps := (List.nodup_cons.mp hnd).1
    have hps : ps.Nodup := (List.nodup_cons.mp hnd).2
    simp only [List.map_cons, List.flatten_cons, List.length_append, List.any_cons]
    rw [ih hps, length_filter_or]
    · rfl
    · intro x _ hboth
      have h1 : hk[x]? = some p := by simpa using hboth.1
      obtain ⟨p', hp', h2⟩ := List.any_eq_true.mp hboth.2
      have h2' : hk[x]? = some p' := by simpa using h2
      rw [h1] at h2'
      exact hp (by rw [Option.some.inj h2']; exact hp')

theorem avx2Tail_eq_scalarInner (key : Int) (hk : List Int) (tc : Nat) :
    ∀ (fuel j : Nat) (s : ProbeState),
      avx2TailLoop key hk tc fuel j s = scalarInnerLoop key hk tc fuel j s := by
  intro fuel
  induction fuel with
  | zero => intro j s; rfl
  | succ n ih =>
    intro j s
    rw [avx2TailLoop, scalarInnerLoop]
    split
    · split
      · rfl
      · exact ih _ _
    · rfl

theorem neonTail_eq_scalarInner (key : Int) (hk : List Int) (tc : Nat) :
    ∀ (fuel j : Nat) (s : ProbeState),
      neonTailLoop key hk tc fuel j s.matched_indices =
        (scalarInnerLoop key hk tc fuel j s).map ProbeState.matched_indices := by
  intro fuel
  induction fuel with
  | zero => intro j s; rfl
  | succ n ih =>
    intro j s
    rw [neonTailLoop, scalarInnerLoop]
    split
    · split
      · rfl
      · rename_i key' _
        by_cases hx : key = key'
        · simp only [if_pos hx]
          exact ih _ (s.record j)
        · simp only [if_neg hx]
          exact ih _ s
    · rfl

theorem mem_filter_range'_lt (p : Nat → Bool) (a n x : Nat)
    (hx : x ∈ (List.range' a n).filter p) : x < a + n := by
  have := (List.mem_filter.mp hx).1
  rw [List.mem_range'_1] at this
  exact this.2

/-! ## Loops as folds over their control -/

theorem blockOffsets_eq (w tc : Nat) (hw : 0 < w) :
    ∀ (fuel j : Nat), (tc - j) / w < fuel →
      blockOffsets w tc fuel j =
        some (List.range' j ((tc - j) / w) w, j + w * ((tc - j) / w)) := by
  intro fuel
  induction fuel with
  | zero => intro j hf; exact absurd hf (Nat.not_lt_zero _)
  | succ n ih =>
    intro j hf
    by_cases hj : j + w ≤ tc
    · have hq : (tc - j) / w = (tc - (j + w)) / w + 1 := by
        have h1 : tc - j = (tc - (j + w)) + w := by omega
        rw [h1, Nat.add_div_right _ hw]
      rw [blockOffsets, if_pos hj, ih (j + w) (by omega), hq, List.range'_succ]
      simp only [Option.some.injEq, Prod.mk.injEq, true_and]
      rw [Nat.mul_add, Nat.mul_one]
      omega
    · have hq : (tc - j) / w = 0 := Nat.div_eq_of_lt (by omega)
      rw [blockOffsets, if_neg hj, hq]
      simp

theorem scalarIndices_eq (n : Nat) :
    ∀ (fuel j : Nat), n - j < fuel →
      scalarIndices n fuel j = some (List.range' j (n - j)) := by
  intro fuel
  induction fuel with
  | zero => intro j hf; omega
  | succ k ih =>
    intro j hf
    by_cases hj : j < n
    · have hq : n - j = (n - (j + 1)) + 1 := by omega
      rw [scalarIndices, if_pos hj, ih (j + 1) (by omega), hq, List.range'_succ]
    · have hq : n - j = 0 := by omega
      rw [scalarIndices, if_neg hj, hq]
      simp

theorem blockOffsets_bound (w tc : Nat) :
    ∀ (fuel j : Nat) (offs : List Nat) (stop : Nat),
      blockOffsets w tc fuel j = some (offs, stop) → ∀ x, x ∈ offs → x + w ≤ tc := by
  intro fuel
  induction fuel with
  | zero => intro j offs stop h; simp [blockOffsets] at h
  | succ n ih =>
    intro j offs stop h x hx
    rw [blockOffsets] at h
    split at h
    · rename_i hj
      split at h
      · simp at h
      · rename_i offs' stop' hrec
        simp only [Option.some.injEq, Prod.mk.injEq] at h
        rw [← h.1] at hx
        rcases List.mem_cons.mp hx with rfl | hx'
        · exact hj
        · exact ih _ _ _ hrec x hx'
    · simp only [Option.some.injEq, Prod.mk.injEq] at h
      rw [← h.1] at hx
      simp at hx

theorem scalarIndices_bound (n : Nat) :
    ∀ (fuel j : Nat) (idx : List Nat),
      scalarIndices n fuel j = some idx → ∀ x, x ∈ idx → x < n := by
  intro fuel
  induction fuel with
  | zero => intro j idx h; simp [scalarIndices] at h
  | succ k ih =>
    intro j idx h x hx
    rw [scalarIndices] at h
    split at h
    · rename_i hj
      split at h
      · simp at h
      · rename_i idx' hrec
        simp only [Option.some.injEq] at h
        rw [← h] at hx
        rcases List.mem_cons.mp hx with rfl | hx'
        · exact hj
        · exact ih _ _ hrec x hx'
    · simp only [Option.some.injEq] at h
      rw [← h] at hx
      simp at hx

/-- A loop whose iteration at `j` is `body j` followed by the loop at `j + 1`,
guarded by `j < bound`, is the fold of `body` over the scalar loop control. -/
theorem scalarLoop_fold {σ : Type} (bound : Nat) (body : Nat → σ → Option σ)
    (loop : Nat → Nat → σ → Option σ)
    (hzero : ∀ j s, loop 0 j s = none)
    (hsucc : ∀ fuel j s, loop (fuel + 1) j s =
      if j < bound then (body j s).bind (fun s' => loop fuel (j + 1) s') else some s) :
    ∀ (fuel j : Nat) (s : σ),
      loop fuel j s = (scalarIndices bound fuel j).bind (fun idx => foldSteps body idx s) := by
  intro fuel
  induction fuel with
  | zero => intro j s; rw [hzero]; rfl
  | succ n ih =>
    intro j s
    rw [hsucc, scalarIndices]
    by_cases hj : j < bound
    · rw [if_pos hj, if_pos hj]
      cases hb : body j s with
      | none =>
        cases ho : scalarIndices bound n (j + 1) with
        | none => rfl
        | some t => simp [foldSteps, hb]
      | some s' =>
        simp only [Option.some_bind]
        rw [ih (j + 1) s']
        cases ho : scalarIndices bound n (j + 1) with
        | none => rfl
        | some t => simp [foldSteps, hb]
    · rw [if_neg hj, if_neg hj]
      rfl

theorem scalarInnerLoop_fold (key : Int) (hk : List Int) (tc : Nat) (fuel j : Nat)
    (s : ProbeState) :
    scalarInnerLoop key hk tc fuel j s =
      (scalarIndices tc fuel j).bind (fun idx => foldSteps (scalarBody key hk) idx s) := by
  apply scalarLoop_fold tc (scalarBody key hk) (scalarInnerLoop key hk tc)
  · intro j s; rfl
  · intro fuel j s
    rw [scalarInnerLoop, scalarBody]
    cases hk[j]? <;> rfl

theorem avx2ProbeLoop_fold (pk : List Int) (pc : Nat) (hk : List Int) (tc : Nat)
    (fuel i : Nat) (s : ProbeState) :
    avx2ProbeLoop pk pc hk tc fuel i s =
      (scalarIndices pc fuel i).bind
        (fun idx => foldSteps (probeBody (fun key s' => avx2ProbeKey key hk tc s') pk) idx s) := by
  apply scalarLoop_fold pc (probeBody (fun key s' => avx2ProbeKey key hk tc s') pk)
    (avx2ProbeLoop pk pc hk tc)
  · intro j s; rfl
  · intro fuel j s
    rw [avx2ProbeLoop, probeBody]
    cases pk[j]? with
    | none => rfl
    | some key =>
      simp only []
      cases avx2ProbeKey key hk tc s <;> rfl

theorem scalarProbeLoop_fold (pk : List Int) (pc : Nat) (hk : List Int) (tc : Nat)
    (fuel i : Nat) (s : ProbeState) :
    scalarProbeLoop pk pc hk tc fuel i s =
      (scalarIndices pc fuel i).bind
        (fun idx =>
          foldSteps (probeBody (fun key s' => scalarProbeKey key hk tc s') pk) idx s) := by
  apply scalarLoop_fold pc (probeBody (fun key s' => scalarProbeKey key hk tc s') pk)
    (scalarProbeLoop pk pc hk tc)
  · intro j s; rfl
  · intro fuel j s
    rw [scalarProbeLoop, probeBody]
    cases pk[j]? with
    | none => rfl
    | some key =>
      simp only []
      cases scalarProbeKey key hk tc s <;> rfl

theorem neonProbeLoop_fold (pk : List Int) (pc : Nat) (hk : List Int) (tc : Nat)
    (fuel i : Nat) (m : List Nat) :
    neonProbeLoop pk pc hk tc fuel i m =
      (scalarIndices pc fuel i).bind
        (fun idx => foldSteps (probeBody (fun key m' => neonProbeKey key hk tc m') pk) idx m) := by
  apply scalarLoop_fold pc (probeBody (fun key m' => neonProbeKey key hk tc m') pk)
    (neonProbeLoop pk pc hk tc)
  · intro j m; rfl
  · intro fuel j m
    rw [neonProbeLoop, probeBody]
    cases pk[j]? with
    | none => rfl
    | some key =>
      simp only []
      cases neonProbeKey key hk tc m <;> rfl

/-! ## Further properties of the reference semantics -/

theorem movemask_lt :
    ∀ b0 b1 b2 b3 b4 b5 b6 b7 : Bool,
      mm256_movemask_epi8
          [laneOf b0, laneOf b1, laneOf b2, laneOf b3, laneOf b4, laneOf b5, laneOf b6,
            laneOf b7] < 2 ^ 32 := by
  decide

/-- The move-mask of a comparison against a loaded block fits in 32 bits. -/
theorem movemask_block_lt (key : Int) (hk : List Int) (j : Nat) (h : j + 8 ≤ hk.length) :
    mm256_movemask_epi8 (mm256_cmpeq_epi32 (mm256_set1_epi32 key) ((hk.drop j).take 8)) <
      2 ^ 32 := by
  have hlen : ((hk.drop j).take 8).length = 8 := by
    simp [List.length_take, List.length_drop]; omega
  obtain ⟨a0, a1, a2, a3, a4, a5, a6, a7, htv⟩ := length_eight _ hlen
  rw [htv]
  have hcmp : mm256_cmpeq_epi32 (mm256_set1_epi32 key) [a0, a1, a2, a3, a4, a5, a6, a7] =
      [laneOf (decide (key = a0)), laneOf (decide (key = a1)), laneOf (decide (key = a2)),
        laneOf (decide (key = a3)), laneOf (decide (key = a4)), laneOf (decide (key = a5)),
        laneOf (decide (key = a6)), laneOf (decide (key = a7))] := by
    simp [mm256_cmpeq_epi32, mm256_set1_epi32, List.replicate, laneOf]
  rw [hcmp]
  exact movemask_lt _ _ _ _ _ _ _ _

theorem matchesOf_nodup (key : Int) (hk : List Int) (tc : Nat) :
    (matchesOf key hk tc).Nodup :=
  (List.nodup_range tc).filter _

theorem matchesOf_length_le (key : Int) (hk : List Int) (tc : Nat) :
    (matchesOf key hk tc).length ≤ tc := by
  have := List.length_filter_le (fun j => decide (hk[j]? = some key)) (List.range tc)
  simpa [matchesOf] using this

/-- A build index whose key is `key` occurs once among the matches of `key` and
not at all among the matches of another probe key. -/
theorem count_matchesOf (p key : Int) (hk : List Int) (tc j : Nat) (hj : j < tc)
    (hkey : hk[j]? = some key) :
    (matchesOf p hk tc).count j = if p = key then 1 else 0 := by
  by_cases hp : p = key
  · rw [if_pos hp]
    apply List.count_eq_one_of_mem (matchesOf_nodup p hk tc)
    rw [mem_matchesOf, hp]
    exact ⟨hj, hkey⟩
  · rw [if_neg hp]
    apply List.count_eq_zero_of_not_mem
    rw [mem_matchesOf]
    rintro ⟨_, h2⟩
    rw [hkey] at h2
    exact hp (Option.some.inj h2).symm

theorem count_segments (hk : List Int) (tc j : Nat) (key : Int) (hj : j < tc)
    (hkey : hk[j]? = some key) :
    ∀ l : List Int,
      ((l.map (fun p => matchesOf p hk tc)).flatten).count j = l.count key := by
  intro l
  induction l with
  | nil => simp
  | cons p ps ih =>
    rw [List.map_cons, List.flatten_cons, List.count_append, ih,
      count_matchesOf p key hk tc j hj hkey, List.count_cons]
    by_cases hp : p = key
    · simp [hp, Nat.add_comm]
    · simp [hp]

theorem allMatches_length_le (pk : List Int) (hk : List Int) (tc : Nat) :
    ∀ pc : Nat, pc ≤ pk.length → (allMatches pk pc hk tc).length ≤ pc * tc := by
  intro pc
  induction pc with
  | zero => intro _; simp [allMatches, matchSegments]
  | succ n ih =>
    intro hpc
    have hn : n < pk.length := by omega
    rw [allMatches_succ pk hk tc n hn, List.length_append, Nat.succ_mul]
    have h1 := ih (by omega)
    have h2 := matchesOf_length_le pk[n] hk tc
    omega

theorem allMatches_nil_of_no_match (pk : List Int) (pc : Nat) (hk : List Int) (tc : Nat)
    (hpc : pc ≤ pk.length)
    (hno : ∀ i j, i < pc → j < tc → hk[j]? ≠ pk[i]?) :
    allMatches pk pc hk tc = [] := by
  rw [allMatches_eq_range pk pc hk tc hpc]
  simp only [List.flatten_eq_nil_iff, List.mem_map, List.mem_range]
  rintro seg ⟨i, hi, rfl⟩
  rw [List.filter_eq_nil_iff]
  intro j hj
  have := hno i j hi (List.mem_range.mp hj)
  simpa using this

theorem allMatches_append (p1 p2 : List Int) (hk : List Int) (tc : Nat) :
    allMatches (p1 ++ p2) (p1.length + p2.length) hk tc =
      allMatches p1 p1.length hk tc ++ allMatches p2 p2.length hk tc := by
  have h12 : (p1 ++ p2).take (p1.length + p2.length) = p1 ++ p2 :=
    List.take_of_length_le (by simp)
  simp only [allMatches, matchSegments, h12, List.take_length, List.map_append,
    List.flatten_append]

theorem matchPairs_succ (pk : List Int) (hk : List Int) (tc n : Nat) (hn : n < pk.length) :
    matchPairs pk (n + 1) hk tc =
      matchPairs pk n hk tc ++ (matchesOf pk[n] hk tc).map (fun j => (n, j)) := by
  simp only [matchPairs]
  rw [List.range_succ, List.flatMap_append, List.flatMap_singleton, key_read pk n hn]

theorem matchPairs_snd (pk : List Int) (hk : List Int) (tc : Nat) :
    ∀ pc : Nat, pc ≤ pk.length →
      (matchPairs pk pc hk tc).map Prod.snd = allMatches pk pc hk tc := by
  intro pc
  induction pc with
  | zero => intro _; simp [matchPairs, allMatches, matchSegments]
  | succ n ih =>
    intro hpc
    have hn : n < pk.length := by omega
    rw [matchPairs_succ pk hk tc n hn, allMatches_succ pk hk tc n hn, List.map_append,
      ih (by omega), List.map_map]
    congr 1
    exact List.map_id _

theorem mem_matchPairs (pk : List Int) (pc : Nat) (hk : List Int) (tc : Nat) (i j : Nat) :
    (i, j) ∈ matchPairs pk pc hk tc ↔
      i < pc ∧ ∃ p, pk[i]? = some p ∧ j < tc ∧ hk[j]? = some p := by
  simp only [matchPairs, List.mem_flatMap, List.mem_range]
  constructor
  · rintro ⟨a, ha, hmem⟩
    cases hp : pk[a]? with
    | none => rw [hp] at hmem; simp at hmem
    | some p =>
      rw [hp] at hmem
      simp only [List.mem_map, Prod.mk.injEq] at hmem
      obtain ⟨x, hx, rfl, rfl⟩ := hmem
      exact ⟨ha, p, hp, (mem_matchesOf p hk tc x).mp hx⟩
  · rintro ⟨hi, p, hp, hj, hkj⟩
    refine ⟨i, hi, ?_⟩
    rw [hp]
    exact List.mem_map.mpr ⟨j, (mem_matchesOf p hk tc j).mpr ⟨hj, hkj⟩, rfl⟩

theorem matchPairs_nodup (pk : List Int) (pc : Nat) (hk : List Int) (tc : Nat) :
    (matchPairs pk pc hk tc).Nodup := by
  rw [matchPairs, List.nodup_flatMap]
  constructor
  · intro i _
    cases pk[i]? with
    | none => exact List.nodup_nil
    | some p =>
      exact (matchesOf_nodup p hk tc).map (fun a b h => (Prod.mk.inj h).2)
  · apply (List.pairwise_lt_range pc).imp
    intro a b hab
    rw [Function.onFun, List.disjoint_left]
    intro x hxa hxb
    have h1 : x.1 = a := by
      revert hxa
      cases pk[a]? with
      | none => intro hxa; simp at hxa
      | some p =>
        intro hxa
        simp only [List.mem_map] at hxa
        obtain ⟨_, _, rfl⟩ := hxa
        rfl
    have h2 : x.1 = b := by
      revert hxb
      cases pk[b]? with
      | none => intro hxb; simp at hxb
      | some p =>
        intro hxb
        simp only [List.mem_map] at hxb
        obtain ⟨_, _, rfl⟩ := hxb
        rfl
    omega

/-! ## Exact counting and the per-key bodies as folds -/

/-- Counting under a disjunction adds up exactly when the two tests never hold
together on the list. -/
theorem length_filter_or_eq_iff (xs : List Nat) (p q : Nat → Bool) :
    (xs.filter (fun x => p x || q x)).length = (xs.filter p).length + (xs.filter q).length ↔
      ∀ x, x ∈ xs → ¬ (p x = true ∧ q x = true) := by
  constructor
  · induction xs with
    | nil => intro _ x hx; simp at hx
    | cons a as ih =>
      intro heq x hx
      have hle := length_filter_or_le as p q
      cases hp : p a <;> cases hq : q a <;>
        simp only [List.filter_cons, hp, hq, Bool.or_false, Bool.or_true, Bool.false_eq_true,
          if_false, if_true, List.length_cons] at heq
      · rcases List.mem_cons.mp hx with rfl | hx'
        · simp [hp]
        · exact ih heq x hx'
      · rcases List.mem_cons.mp hx with rfl | hx'
        · simp [hp]
        · exact ih (by omega) x hx'
      · rcases List.mem_cons.mp hx with rfl | hx'
        · simp [hq]
        · exact ih (by omega) x hx'
      · omega
  · exact length_filter_or xs p q

/-- The appended entries are as many as the matched positions exactly when no
probe key that equals a build key below `tc` occurs twice. -/
theorem length_segments_eq_iff (hk : List Int) (tc : Nat) :
    ∀ l : List Int,
      (((l.map (fun p => matchesOf p hk tc)).flatten).length =
          ((List.range tc).filter (fun j => l.any (fun p => hk[j]? = some p))).length ↔
        ∀ j, j < tc → ∀ key, hk[j]? = some key → l.count key ≤ 1) := by
  intro l
  induction l with
  | nil => simp
  | cons p ps ih =>
    have hge := length_segments_ge hk tc ps
    have hor := length_filter_or_le (List.range tc) (fun j => decide (hk[j]? = some p))
      (fun j => ps.any (fun p => hk[j]? = some p))
    have hiff := length_filter_or_eq_iff (List.range tc)
      (fun j => decide (hk[j]? = some p)) (fun j => ps.any (fun p => hk[j]? = some p))
    have hm : (matchesOf p hk tc).length =
        ((List.range tc).filter (fun j => decide (hk[j]? = some p))).length := rfl
    simp only [List.map_cons, List.flatten_cons, List.length_append, List.any_cons]
    constructor
    · intro heq j hj key hkey
      have h1 : ((ps.map (fun p => matchesOf p hk tc)).flatten).length =
          ((List.range tc).filter (fun j => ps.any (fun p => hk[j]? = some p))).length := by
        omega
      have h2 := hiff.mp (by omega)
      have hps := ih.mp h1 j hj key hkey
      rw [List.count_cons]
      by_cases hpk : p = key
      · subst hpk
        have hnot : p ∉ ps := by
          intro hmem
          apply h2 j (List.mem_range.mpr hj)
          refine ⟨by simpa using hkey, ?_⟩
          exact List.any_eq_true.mpr ⟨p, hmem, by simpa using hkey⟩
        rw [List.count_eq_zero_of_not_mem hnot]
        simp
      · have : (p == key) = false := by simpa using hpk
        rw [this]
        simpa using hps
    · intro hall
      have h1 := ih.mpr (fun j hj key hkey => by
        have := hall j hj key hkey
        rw [List.count_cons] at this
        omega)
      have h2 := hiff.mpr (by
        intro j hj hboth
        have hjp : hk[j]? = some p := by simpa using hboth.1
        obtain ⟨p', hp', hjp'⟩ := List.any_eq_true.mp hboth.2
        have hjp'' : hk[j]? = some p' := by simpa using hjp'
        rw [hjp] at hjp''
        have hpp : p' = p := (Option.some.inj hjp'').symm
        rw [hpp] at hp'
        have hc := hall j (List.mem_range.mp hj) p hjp
        rw [List.count_cons] at hc
        have hpos : 0 < ps.count p := List.count_pos_iff.mpr hp'
        simp at hc
        omega)
      omega

/-- C1: for every probe key array, build key array and initial result sequence
(the counts not exceeding the array lengths), the 8-lane AVX2 body with its scalar
tail, the scalar double loop of the non-AVX2 build and the 4-lane NEON function
with its scalar tail all return, and leave the same result sequence. -/
theorem strategies_agree (probe_keys : List Int) (probe_count : Nat)
    (hash_table_keys : List Int) (table_count : Nat) (matched_indices : List Nat)
    (hpc : probe_count ≤ probe_keys.length) (htc : table_count ≤ hash_table_keys.length) :
    ∃ m : List Nat,
      (VectorizedProbe_AVX2 true probe_keys probe_count hash_table_keys table_count
        matched_indices).map ProbeResult.matched_indices = some m ∧
      (VectorizedProbe_AVX2 false probe_keys probe_count hash_table_keys table_count
        matched_indices).map ProbeResult.matched_indices = some m ∧
      (VectorizedProbe_NEON probe_keys probe_count hash_table_keys table_count
        matched_indices).map ProbeResult.matched_indices = some m := by
  refine ⟨matched_indices ++ allMatches probe_keys probe_count hash_table_keys table_count,
    ?_, ?_, ?_⟩
  · rw [VectorizedProbe_AVX2_simd_eq _ _ _ _ _ hpc htc]
    rfl
  · rw [VectorizedProbe_AVX2_scalar_eq _ _ _ _ _ hpc htc]
    rfl
  · rw [VectorizedProbe_NEON_eq _ _ _ _ _ hpc htc]
    rfl

/-- Witness for C1: eighteen build keys (two full AVX2 blocks and a tail of two,
four full NEON blocks and a tail of two), three probe keys, a non-empty initial
result sequence. -/
theorem strategies_agree_witness :
    ∃ m : List Nat,
      (VectorizedProbe_AVX2 true [5, 9, -1] 3
        [1, 5, 5, 9, 2, 5, 5, -1, -1, -1, 5, 9, 9, 5, 5, 5, 9, 5] 18 [7]).map
        ProbeResult.matched_indices = some m ∧
      (VectorizedProbe_AVX2 false [5, 9, -1] 3
        [1, 5, 5, 9, 2, 5, 5, -1, -1, -1, 5, 9, 9, 5, 5, 5, 9, 5] 18 [7]).map
        ProbeResult.matched_indices = some m ∧
      (VectorizedProbe_NEON [5, 9, -1] 3
        [1, 5, 5, 9, 2, 5, 5, -1, -1, -1, 5, 9, 9, 5, 5, 5, 9, 5] 18 [7]).map
        ProbeResult.matched_indices = some m :=
  strategies_agree [5, 9, -1] 3 [1, 5, 5, 9, 2, 5, 5, -1, -1, -1, 5, 9, 9, 5, 5, 5, 9, 5] 18 [7]
    (by decide) (by decide)

/-- C2: for every probe array, build array and initial result sequence `r` (the
counts not exceeding the array lengths), each strategy leaves `r` followed by, for
each probe index `i = 0 .. probe_count - 1` in order, the ascending list of all
build indices `j < table_count` with `build_keys[j] == probe_keys[i]`; and
`probe_keys = [5, 9]`, `build_keys = [1, 5, 5, 9, 2]` on an empty result sequence
gives `[1, 2, 3]` in every strategy. -/
theorem probe_reference_semantics (st : Strategy) (probe_keys : List Int) (probe_count : Nat)
    (build_keys : List Int) (table_count : Nat) (r : List Nat)
    (hpc : probe_count ≤ probe_keys.length) (htc : table_count ≤ build_keys.length) :
    runProbe st probe_keys probe_count build_keys table_count r =
        some (r ++ ((List.range probe_count).map
          (fun i => (List.range table_count).filter
            (fun j => build_keys[j]? = probe_keys[i]?))).flatten) ∧
      runProbe st [5, 9] 2 [1, 5, 5, 9, 2] 5 [] = some [1, 2, 3] := by
  constructor
  · rw [runProbe_eq st _ _ _ _ _ hpc htc, allMatches_eq_range _ _ _ _ hpc]
  · cases st <;> decide

/-- Witness for C2: nine build keys (one full AVX2 block and a tail of one) on a
non-empty result sequence. -/
theorem probe_reference_semantics_witness :
    runProbe Strategy.avx2 [5, 9] 2 [1, 5, 5, 9, 2, 0, 0, 9, 5] 9 [4] =
      some [4, 1, 2, 8, 3, 7] :=
  (probe_reference_semantics Strategy.avx2 [5, 9] 2 [1, 5, 5, 9, 2, 0, 0, 9, 5] 9 [4]
    (by decide) (by decide)).1.trans (by decide)

/-- C3 (completeness): for every probe index `i < probe_count` and build index
`j < table_count` with `build_keys[j] == probe_keys[i]`, in every strategy and
for every `table_count` (multiple of the vector width or not): the loop reaches
iteration `i` in some state `before` (the result of the call with bound `i`),
processing probe key `i` appends a segment `seg` that contains `j`, and the
finished call holds `before ++ seg` followed by the later entries. -/
theorem probe_complete (st : Strategy) (probe_keys : List Int) (probe_count : Nat)
    (build_keys : List Int) (table_count : Nat) (r : List Nat)
    (hpc : probe_count ≤ probe_keys.length) (htc : table_count ≤ build_keys.length)
    (i j : Nat) (hi : i < probe_count) (hj : j < table_count)
    (heq : build_keys[j]? = probe_keys[i]?) :
    ∃ (key : Int) (before seg rest : List Nat),
      probe_keys[i]? = some key ∧
      runProbe st probe_keys i build_keys table_count r = some before ∧
      probeKeyStep st key build_keys table_count before = some (before ++ seg) ∧
      j ∈ seg ∧
      runProbe st probe_keys (i + 1) build_keys table_count r = some (before ++ seg) ∧
      runProbe st probe_keys probe_count build_keys table_count r =
        some (before ++ seg ++ rest) := by
  have hlt : i < probe_keys.length := by omega
  have hkey := key_read probe_keys i hlt
  refine ⟨probe_keys[i], r ++ allMatches probe_keys i build_keys table_count,
    matchesOf probe_keys[i] build_keys table_count,
    (((probe_keys.take probe_count).drop (i + 1)).map
      (fun p => matchesOf p build_keys table_count)).flatten, hkey, ?_, ?_, ?_, ?_, ?_⟩
  · exact runProbe_eq st _ _ _ _ _ (by omega) htc
  · exact probeKeyStep_eq st _ _ _ _ htc
  · rw [mem_matchesOf]
    exact ⟨hj, by rw [heq, hkey]⟩
  · rw [runProbe_eq st _ _ _ _ _ (by omega) htc, allMatches_succ _ _ _ _ hlt,
      List.append_assoc]
  · rw [runProbe_eq st _ _ _ _ _ hpc htc,
      allMatches_split probe_keys probe_count build_keys table_count (i + 1) (by omega),
      allMatches_succ _ _ _ _ hlt]
    simp [List.append_assoc]

/-- Witness for C3: ten build keys, not a multiple of 8 or of 4; probe key 1
matches build index 9, which lies in the scalar tail of both wide paths. -/
theorem probe_complete_witness :
    ∃ (key : Int) (before seg rest : List Nat),
      ([3, 7, 3] : List Int)[1]? = some key ∧
      runProbe Strategy.avx2 [3, 7, 3] 1 [7, 3, 0, 0, 3, 0, 0, 7, 0, 7] 10 [] = some before ∧
      probeKeyStep Strategy.avx2 key [7, 3, 0, 0, 3, 0, 0, 7, 0, 7] 10 before =
        some (before ++ seg) ∧
      9 ∈ seg ∧
      runProbe Strategy.avx2 [3, 7, 3] 2 [7, 3, 0, 0, 3, 0, 0, 7, 0, 7] 10 [] =
        some (before ++ seg) ∧
      runProbe Strategy.avx2 [3, 7, 3] 3 [7, 3, 0, 0, 3, 0, 0, 7, 0, 7] 10 [] =
        some (before ++ seg ++ rest) :=
  probe_complete Strategy.avx2 [3, 7, 3] 3 [7, 3, 0, 0, 3, 0, 0, 7, 0, 7] 10 []
    (by decide) (by decide) 1 9 (by decide) (by decide) (by decide)

/-- C4 (no false positives): in every strategy and for every probe index
`i < probe_count`, the segment appended while probe key `i` is processed (from
the state `before` in which iteration `i` starts) holds only indices
`j < table_count` with `build_keys[j] == probe_keys[i]`. -/
theorem probe_sound (st : Strategy) (probe_keys : List Int) (probe_count : Nat)
    (build_keys : List Int) (table_count : Nat) (r : List Nat)
    (hpc : probe_count ≤ probe_keys.length) (htc : table_count ≤ build_keys.length)
    (i : Nat) (hi : i < probe_count) :
    ∃ (key : Int) (before seg rest : List Nat),
      probe_keys[i]? = some key ∧
      runProbe st probe_keys i build_keys table_count r = some before ∧
      probeKeyStep st key build_keys table_count before = some (before ++ seg) ∧
      runProbe st probe_keys (i + 1) build_keys table_count r = some (before ++ seg) ∧
      runProbe st probe_keys probe_count build_keys table_count r =
        some (before ++ seg ++ rest) ∧
      ∀ j, j ∈ seg → j < table_count ∧ build_keys[j]? = probe_keys[i]? := by
  have hlt : i < probe_keys.length := by omega
  have hkey := key_read probe_keys i hlt
  refine ⟨probe_keys[i], r ++ allMatches probe_keys i build_keys table_count,
    matchesOf probe_keys[i] build_keys table_count,
    (((probe_keys.take probe_count).drop (i + 1)).map
      (fun p => matchesOf p build_keys table_count)).flatten, hkey, ?_, ?_, ?_, ?_, ?_⟩
  · exact runProbe_eq st _ _ _ _ _ (by omega) htc
  · exact probeKeyStep_eq st _ _ _ _ htc
  · rw [runProbe_eq st _ _ _ _ _ (by omega) htc, allMatches_succ _ _ _ _ hlt,
      List.append_assoc]
  · rw [runProbe_eq st _ _ _ _ _ hpc htc,
      allMatches_split probe_keys probe_count build_keys table_count (i + 1) (by omega),
      allMatches_succ _ _ _ _ hlt]
    simp [List.append_assoc]
  · intro j hjm
    rw [mem_matchesOf] at hjm
    exact ⟨hjm.1, by rw [hjm.2, hkey]⟩

/-- Witness for C4: the NEON path on ten build keys, probe index 1. -/
theorem probe_sound_witness :
    ∃ (key : Int) (before seg rest : List Nat),
      ([3, 7, 3] : List Int)[1]? = some key ∧
      runProbe Strategy.neon [3, 7, 3] 1 [7, 3, 0, 0, 3, 0, 0, 7, 0, 7] 10 [] = some before ∧
      probeKeyStep Strategy.neon key [7, 3, 0, 0, 3, 0, 0, 7, 0, 7] 10 before =
        some (before ++ seg) ∧
      runProbe Strategy.neon [3, 7, 3] 2 [7, 3, 0, 0, 3, 0, 0, 7, 0, 7] 10 [] =
        some (before ++ seg) ∧
      runProbe Strategy.neon [3, 7, 3] 3 [7, 3, 0, 0, 3, 0, 0, 7, 0, 7] 10 [] =
        some (before ++ seg ++ rest) ∧
      ∀ j, j ∈ seg →
        j < 10 ∧ ([7, 3, 0, 0, 3, 0, 0, 7, 0, 7] : List Int)[j]? = ([3, 7, 3] : List Int)[1]? :=
  probe_sound Strategy.neon [3, 7, 3] 3 [7, 3, 0, 0, 3, 0, 0, 7, 0, 7] 10 []
    (by decide) (by decide) 1 (by decide)

/-- C5 (ordering): in every strategy the entries appended by one call are the
concatenation of `probe_count` segments, one per probe index in increasing probe
order: the call with bound `i` leaves exactly the first `i` segments, segment `i`
is what processing probe key `i` appends, and the build indices inside every
segment are strictly increasing. -/
theorem probe_ordering (st : Strategy) (probe_keys : List Int) (probe_count : Nat)
    (build_keys : List Int) (table_count : Nat) (r : List Nat)
    (hpc : probe_count ≤ probe_keys.length) (htc : table_count ≤ build_keys.length) :
    ∃ segs : List (List Nat),
      segs.length = probe_count ∧
      runProbe st probe_keys probe_count build_keys table_count r = some (r ++ segs.flatten) ∧
      (∀ i, i ≤ probe_count →
        runProbe st probe_keys i build_keys table_count r = some (r ++ (segs.take i).flatten)) ∧
      (∀ (i : Nat) (key : Int) (seg : List Nat),
        probe_keys[i]? = some key → segs[i]? = some seg →
        ∀ m, probeKeyStep st key build_keys table_count m = some (m ++ seg)) ∧
      ∀ seg, seg ∈ segs → seg.Pairwise (fun a b => a < b) := by
  refine ⟨matchSegments probe_keys probe_count build_keys table_count,
    matchSegments_length _ _ _ _ hpc, runProbe_eq st _ _ _ _ _ hpc htc, ?_, ?_, ?_⟩
  · intro i hi
    rw [runProbe_eq st _ _ _ _ _ (by omega) htc, matchSegments_take _ _ _ _ _ hi]
    rfl
  · intro i key seg hkey hseg m
    have hlt : i < probe_count := by
      have := (List.getElem?_eq_some_iff.mp hseg).1
      rw [matchSegments_length _ _ _ _ hpc] at this
      exact this
    rw [matchSegments_getElem _ _ _ _ _ hlt, hkey] at hseg
    simp only [Option.map_some', Option.some.injEq] at hseg
    rw [← hseg]
    exact probeKeyStep_eq st _ _ _ _ htc
  · intro seg hseg
    simp only [matchSegments, List.mem_map] at hseg
    obtain ⟨p, _, rfl⟩ := hseg
    exact matchesOf_pairwise p build_keys table_count

/-- Witness for C5: three probe keys against ten build keys on the AVX2 path. -/
theorem probe_ordering_witness :
    ∃ segs : List (List Nat),
      segs.length = 3 ∧
      runProbe Strategy.avx2 [3, 7, 3] 3 [7, 3, 0, 0, 3, 0, 0, 7, 0, 7] 10 [5] =
        some ([5] ++ segs.flatten) ∧
      (∀ i, i ≤ 3 →
        runProbe Strategy.avx2 [3, 7, 3] i [7, 3, 0, 0, 3, 0, 0, 7, 0, 7] 10 [5] =
          some ([5] ++ (segs.take i).flatten)) ∧
      (∀ (i : Nat) (key : Int) (seg : List Nat),
        ([3, 7, 3] : List Int)[i]? = some key → segs[i]? = some seg →
        ∀ m, probeKeyStep Strategy.avx2 key [7, 3, 0, 0, 3, 0, 0, 7, 0, 7] 10 m =
          some (m ++ seg)) ∧
      ∀ seg, seg ∈ segs → seg.Pairwise (fun a b => a < b) :=
  probe_ordering Strategy.avx2 [3, 7, 3] 3 [7, 3, 0, 0, 3, 0, 0, 7, 0, 7] 10 [5]
    (by decide) (by decide)

/-- C6, counterexample: with the probe key 5 given twice and one build key 5,
every strategy appends two entries, while exactly one build position matches
some probe key. -/
theorem count_positions_counterexample :
    runProbe Strategy.avx2 [5, 5] 2 [5] 1 [] = some [0, 0] ∧
      runProbe Strategy.scalar [5, 5] 2 [5] 1 [] = some [0, 0] ∧
      runProbe Strategy.neon [5, 5] 2 [5] 1 [] = some [0, 0] ∧
      matchedPositions [5, 5] 2 [5] 1 = [0] := by
  decide

/-- C6, amended: in every strategy the number of entries appended by one call is
at least the number of build positions `j < table_count` such that
`build_keys[j] == probe_keys[i]` for some `i < probe_count`, and equals it
exactly when no probe key that equals one of the first `table_count` build keys
occurs more than once among the first `probe_count` probe keys. -/
theorem count_positions_exact (st : Strategy) (probe_keys : List Int) (probe_count : Nat)
    (build_keys : List Int) (table_count : Nat) (r : List Nat)
    (hpc : probe_count ≤ probe_keys.length) (htc : table_count ≤ build_keys.length) :
    ∃ app : List Nat,
      runProbe st probe_keys probe_count build_keys table_count r = some (r ++ app) ∧
      (matchedPositions probe_keys probe_count build_keys table_count).length ≤ app.length ∧
      (app.length = (matchedPositions probe_keys probe_count build_keys table_count).length ↔
        ∀ j, j < table_count → ∀ key, build_keys[j]? = some key →
          (probe_keys.take probe_count).count key ≤ 1) := by
  refine ⟨allMatches probe_keys probe_count build_keys table_count,
    runProbe_eq st _ _ _ _ _ hpc htc, ?_, ?_⟩
  · exact length_segments_ge build_keys table_count _
  · exact length_segments_eq_iff build_keys table_count _

/-- Witness for C6 amended: the probe key 7 is given twice but equals no build
key, the probe key 5 is given once and matches build positions 0 and 2; the
entries appended are as many as the matched positions. -/
theorem count_positions_exact_witness :
    ∃ app : List Nat,
      runProbe Strategy.avx2 [7, 7, 5] 3 [5, 1, 5] 3 [] = some ([] ++ app) ∧
      (matchedPositions [7, 7, 5] 3 [5, 1, 5] 3).length ≤ app.length ∧
      app.length = (matchedPositions [7, 7, 5] 3 [5, 1, 5] 3).length := by
  obtain ⟨app, hrun, hge, hiff⟩ :=
    count_positions_exact Strategy.avx2 [7, 7, 5] 3 [5, 1, 5] 3 [] (by decide) (by decide)
  refine ⟨app, hrun, hge, hiff.mpr ?_⟩
  intro j hj key hkey
  have hcases : j = 0 ∨ j = 1 ∨ j = 2 := by omega
  rcases hcases with rfl | rfl | rfl <;>
    · simp only [List.getElem?_cons_zero, List.getElem?_cons_succ, Option.some.injEq] at hkey
      subst hkey
      decide

/-- C7: in every strategy every index appended by a call is below `table_count`;
this holds separately for what the wide block loop appends (the entries
`block_start + lane_index`) and for what the scalar tail appends, on the AVX2 and
on the NEON path. -/
theorem appended_below_table_count (st : Strategy) (probe_keys : List Int) (probe_count : Nat)
    (build_keys : List Int) (table_count : Nat) (r : List Nat)
    (hpc : probe_count ≤ probe_keys.length) (htc : table_count ≤ build_keys.length) :
    (∃ app : List Nat,
      runProbe st probe_keys probe_count build_keys table_count r = some (r ++ app) ∧
      ∀ x, x ∈ app → x < table_count) ∧
    (∀ (key : Int) (s : ProbeState), ∃ wide tail : List Nat,
      avx2BlockLoop (mm256_set1_epi32 key) build_keys table_count (table_count + 1) 0 s =
        some (s.recordAll wide) ∧
      avx2TailLoop key build_keys table_count (table_count + 1)
        (table_count - table_count % 8) (s.recordAll wide) =
        some ((s.recordAll wide).recordAll tail) ∧
      (∀ x, x ∈ wide → x < table_count) ∧ ∀ x, x ∈ tail → x < table_count) ∧
    (∀ (key : Int) (m : List Nat), ∃ (j : Nat) (wide tail : List Nat),
      neonBlockLoop (vdupq_n_s32 key) build_keys table_count (table_count + 1) 0 m =
        some (j, m ++ wide) ∧
      neonTailLoop key build_keys table_count (table_count + 1) j (m ++ wide) =
        some (m ++ wide ++ tail) ∧
      (∀ x, x ∈ wide → x < table_count) ∧ ∀ x, x ∈ tail → x < table_count) := by
  refine ⟨⟨allMatches probe_keys probe_count build_keys table_count,
    runProbe_eq st _ _ _ _ _ hpc htc, fun x hx => mem_allMatches_lt _ _ _ _ x hx⟩, ?_, ?_⟩
  · intro key s
    refine ⟨_, _, avx2BlockLoop_eq key build_keys table_count htc (table_count + 1) 0 s
      (by omega), avx2TailLoop_eq key build_keys table_count htc (table_count + 1) _ _
      (by omega), ?_, ?_⟩
    · intro x hx
      have := mem_filter_range'_lt _ _ _ _ hx
      omega
    · intro x hx
      have := mem_filter_range'_lt _ _ _ _ hx
      omega
  · intro key m
    refine ⟨_, _, _, neonBlockLoop_eq key build_keys table_count htc (table_count + 1) 0 m
      (by omega), neonTailLoop_eq key build_keys table_count htc (table_count + 1) _ _
      (by omega), ?_, ?_⟩
    · intro x hx
      have := mem_filter_range'_lt _ _ _ _ hx
      omega
    · intro x hx
      have := mem_filter_range'_lt _ _ _ _ hx
      omega

/-- Witness for C7: the AVX2 path where the match of probe key 7 in lane 7 of the
only full block (index 7) and the match in the tail (index 9) are both appended. -/
theorem appended_below_table_count_witness :
    ∃ app : List Nat,
      runProbe Strategy.avx2 [3, 7, 3] 3 [7, 3, 0, 0, 3, 0, 0, 7, 0, 7] 10 [] =
        some ([] ++ app) ∧
      ∀ x, x ∈ app → x < 10 :=
  (appended_below_table_count Strategy.avx2 [3, 7, 3] 3 [7, 3, 0, 0, 3, 0, 0, 7, 0, 7] 10 []
    (by decide) (by decide)).1

/-- C8 (non-clearing append): in every strategy a call leaves the initial result
sequence `r` as an unchanged prefix, followed by what the same call appends to an
empty sequence, `m`; a second call with the same inputs on the result of the
first leaves `r ++ m ++ m`. -/
theorem append_only_twice (st : Strategy) (probe_keys : List Int) (probe_count : Nat)
    (build_keys : List Int) (table_count : Nat) (r : List Nat)
    (hpc : probe_count ≤ probe_keys.length) (htc : table_count ≤ build_keys.length) :
    ∃ m : List Nat,
      runProbe st probe_keys probe_count build_keys table_count [] = some m ∧
      runProbe st probe_keys probe_count build_keys table_count r = some (r ++ m) ∧
      (runProbe st probe_keys probe_count build_keys table_count r).bind
        (fun r' => runProbe st probe_keys probe_count build_keys table_count r') =
        some (r ++ m ++ m) := by
  refine ⟨allMatches probe_keys probe_count build_keys table_count, ?_,
    runProbe_eq st _ _ _ _ _ hpc htc, ?_⟩
  · rw [runProbe_eq st _ _ _ _ _ hpc htc, List.nil_append]
  · rw [runProbe_eq st _ _ _ _ _ hpc htc, Option.some_bind, runProbe_eq st _ _ _ _ _ hpc htc]

/-- Witness for C8: the NEON path on a result sequence that already holds two
entries. -/
theorem append_only_twice_witness :
    ∃ m : List Nat,
      runProbe Strategy.neon [5, 9] 2 [1, 5, 5, 9, 2] 5 [] = some m ∧
      runProbe Strategy.neon [5, 9] 2 [1, 5, 5, 9, 2] 5 [40, 41] = some ([40, 41] ++ m) ∧
      (runProbe Strategy.neon [5, 9] 2 [1, 5, 5, 9, 2] 5 [40, 41]).bind
        (fun r' => runProbe Strategy.neon [5, 9] 2 [1, 5, 5, 9, 2] 5 r') =
        some ([40, 41] ++ m ++ m) :=
  append_only_twice Strategy.neon [5, 9] 2 [1, 5, 5, 9, 2] 5 [40, 41] (by decide) (by decide)

/-- C9 (zero-length boundaries): in every strategy a call with `table_count = 0`
leaves the result sequence exactly as it was for any probe array, and a call with
`probe_count = 0` leaves it exactly as it was for any build array and any
`table_count`. -/
theorem zero_length_appends_nothing (st : Strategy) (probe_keys : List Int)
    (probe_count : Nat) (build_keys : List Int) (table_count : Nat) (r : List Nat)
    (hpc : probe_count ≤ probe_keys.length) :
    runProbe st probe_keys probe_count build_keys 0 r = some r ∧
      runProbe st probe_keys 0 build_keys table_count r = some r := by
  constructor
  · rw [runProbe_eq st _ _ _ _ _ hpc (Nat.zero_le _)]
    have hnil : allMatches probe_keys probe_count build_keys 0 = [] := by
      simp [allMatches, matchSegments, matchesOf]
    rw [hnil, List.append_nil]
  · cases st <;> rfl

/-- Witness for C9: three probe keys against an empty table, and no probe key
against three build keys, on the AVX2 path. -/
theorem zero_length_appends_nothing_witness :
    runProbe Strategy.avx2 [4, 4, 6] 3 [] 0 [2, 1] = some [2, 1] ∧
      runProbe Strategy.avx2 [4, 4, 6] 0 [] 3 [2, 1] = some [2, 1] :=
  zero_length_appends_nothing Strategy.avx2 [4, 4, 6] 3 [] 3 [2, 1] (by decide)

/-- C10 (small table): when `table_count < 8` the AVX2 block loop performs no
iteration (it returns its input state at once, whatever the vector and the array,
so no block is loaded), the tail starts at index 0 and is the scalar inner loop,
so processing a probe key is the scalar processing and the call leaves the result
of the scalar double loop; likewise for the NEON path when `table_count < 4`. -/
theorem small_table_is_scalar (probe_keys : List Int) (probe_count : Nat)
    (build_keys : List Int) (table_count : Nat) (r : List Nat) :
    (table_count < 8 →
      (∀ (probe_vec : List Int) (fuel : Nat) (s : ProbeState),
        avx2BlockLoop probe_vec build_keys table_count (fuel + 1) 0 s = some s) ∧
      table_count - table_count % 8 = 0 ∧
      (∀ (key : Int) (fuel j : Nat) (s : ProbeState),
        avx2TailLoop key build_keys table_count fuel j s =
          scalarInnerLoop key build_keys table_count fuel j s) ∧
      (∀ (key : Int) (s : ProbeState),
        avx2ProbeKey key build_keys table_count s = scalarProbeKey key build_keys table_count s) ∧
      (probe_count ≤ probe_keys.length → table_count ≤ build_keys.length →
        ∃ m : List Nat,
          runProbe Strategy.avx2 probe_keys probe_count build_keys table_count r = some m ∧
          runProbe Strategy.scalar probe_keys probe_count build_keys table_count r = some m)) ∧
    (table_count < 4 →
      (∀ (probe_vec : List Int) (fuel : Nat) (m : List Nat),
        neonBlockLoop probe_vec build_keys table_count (fuel + 1) 0 m = some (0, m)) ∧
      (∀ (key : Int) (fuel j : Nat) (s : ProbeState),
        neonTailLoop key build_keys table_count fuel j s.matched_indices =
          (scalarInnerLoop key build_keys table_count fuel j s).map
            ProbeState.matched_indices) ∧
      (∀ (key : Int) (s : ProbeState),
        neonProbeKey key build_keys table_count s.matched_indices =
          (scalarProbeKey key build_keys table_count s).map ProbeState.matched_indices) ∧
      (probe_count ≤ probe_keys.length → table_count ≤ build_keys.length →
        ∃ m : List Nat,
          runProbe Strategy.neon probe_keys probe_count build_keys table_count r = some m ∧
          runProbe Strategy.scalar probe_keys probe_count build_keys table_count r = some m)) := by
  constructor
  · intro h8
    have hblock : ∀ (probe_vec : List Int) (fuel : Nat) (s : ProbeState),
        avx2BlockLoop probe_vec build_keys table_count (fuel + 1) 0 s = some s := by
      intro probe_vec fuel s
      rw [avx2BlockLoop, if_neg (by omega)]
    have hstart : table_count - table_count % 8 = 0 := by omega
    refine ⟨hblock, hstart, fun key => avx2Tail_eq_scalarInner key _ _, ?_, ?_⟩
    · intro key s
      simp only [avx2ProbeKey, hblock, hstart, scalarProbeKey]
      exact avx2Tail_eq_scalarInner _ _ _ _ _ _
    · intro hpc htc
      exact ⟨_, runProbe_eq Strategy.avx2 _ _ _ _ _ hpc htc,
        runProbe_eq Strategy.scalar _ _ _ _ _ hpc htc⟩
  · intro h4
    have hblock : ∀ (probe_vec : List Int) (fuel : Nat) (m : List Nat),
        neonBlockLoop probe_vec build_keys table_count (fuel + 1) 0 m = some (0, m) := by
      intro probe_vec fuel m
      rw [neonBlockLoop, if_neg (by omega)]
    refine ⟨hblock, fun key => neonTail_eq_scalarInner key _ _, ?_, ?_⟩
    · intro key s
      simp only [neonProbeKey, hblock, scalarProbeKey]
      exact neonTail_eq_scalarInner _ _ _ _ _ _
    · intro hpc htc
      exact ⟨_, runProbe_eq Strategy.neon _ _ _ _ _ hpc htc,
        runProbe_eq Strategy.scalar _ _ _ _ _ hpc htc⟩

/-- Witness for C10: three build keys, below both vector widths; the AVX2 and
NEON calls leave the result of the scalar double loop. -/
theorem small_table_is_scalar_witness :
    (∃ m : List Nat,
      runProbe Strategy.avx2 [2, 6] 2 [6, 2, 6] 3 [] = some m ∧
      runProbe Strategy.scalar [2, 6] 2 [6, 2, 6] 3 [] = some m) ∧
    (∃ m : List Nat,
      runProbe Strategy.neon [2, 6] 2 [6, 2, 6] 3 [] = some m ∧
      runProbe Strategy.scalar [2, 6] 2 [6, 2, 6] 3 [] = some m) :=
  ⟨((small_table_is_scalar [2, 6] 2 [6, 2, 6] 3 []).1 (by decide)).2.2.2.2
      (by decide) (by decide),
    ((small_table_is_scalar [2, 6] 2 [6, 2, 6] 3 []).2 (by decide)).2.2.2
      (by decide) (by decide)⟩

/-- C11 (no match): when no build key among the first `table_count` equals any
probe key among the first `probe_count`, every strategy returns the result
sequence with nothing appended; and `probe_keys = [42]`, `build_keys = [1, 2, 3]`
on an empty result sequence gives `[]` in every strategy. -/
theorem no_match_appends_nothing (st : Strategy) (probe_keys : List Int) (probe_count : Nat)
    (build_keys : List Int) (table_count : Nat) (r : List Nat)
    (hpc : probe_count ≤ probe_keys.length) (htc : table_count ≤ build_keys.length)
    (hno : ∀ i, i < probe_count → ∀ j, j < table_count →
      build_keys[j]? ≠ probe_keys[i]?) :
    runProbe st probe_keys probe_count build_keys table_count r = some r ∧
      runProbe st [42] 1 [1, 2, 3] 3 [] = some [] := by
  constructor
  · rw [runProbe_eq st _ _ _ _ _ hpc htc,
      allMatches_nil_of_no_match _ _ _ _ hpc (fun i j hi hj => hno i hi j hj),
      List.append_nil]
  · cases st <;> decide

/-- Witness for C11: two probe keys absent from nine build keys (one full AVX2
block, two full NEON blocks, a tail of one), on a non-empty result sequence. -/
theorem no_match_appends_nothing_witness :
    runProbe Strategy.avx2 [42, 7] 2 [1, 2, 3, 4, 5, 6, 8, 9, 10] 9 [3] = some [3] ∧
      runProbe Strategy.avx2 [42] 1 [1, 2, 3] 3 [] = some [] :=
  no_match_appends_nothing Strategy.avx2 [42, 7] 2 [1, 2, 3, 4, 5, 6, 8, 9, 10] 9 [3]
    (by decide) (by decide) (by decide)

/-- C12 (no out-of-range read): with arrays whose lengths are exactly
`probe_count` and `table_count`, every strategy returns a result, so no read of
the embedding takes its `none` branch.  Access by access: every offset of the
AVX2 (NEON) block loop satisfies `j + 8 <= table_count` (`j + 4 <= table_count`)
and its load succeeds; every index of the AVX2 tail, of the NEON tail (started
where the NEON block loop stops) and of the scalar inner loop is below
`table_count` and its read succeeds; every index of the outer loop is below
`probe_count` and its read succeeds.  These index lists are the iterations of
the code: the outer loops and the scalar inner loop are the folds of their bodies
over them.  The `none` branch is reachable: it is taken when a count exceeds the
length of its array. -/
theorem no_out_of_range_read (st : Strategy) (probe_keys build_keys : List Int)
    (r : List Nat) :
    (∃ m : List Nat,
      runProbe st probe_keys probe_keys.length build_keys build_keys.length r = some m) ∧
    (∃ (offs : List Nat) (stop : Nat),
      blockOffsets 8 build_keys.length (build_keys.length + 1) 0 = some (offs, stop) ∧
      ∀ j, j ∈ offs →
        j + 8 ≤ build_keys.length ∧ (mm256_loadu_si256 build_keys j).isSome = true) ∧
    (∃ idx : List Nat,
      scalarIndices build_keys.length (build_keys.length + 1)
        (build_keys.length - build_keys.length % 8) = some idx ∧
      ∀ j, j ∈ idx → j < build_keys.length ∧ (build_keys[j]?).isSome = true) ∧
    (∃ (offs : List Nat) (stop : Nat) (idx : List Nat),
      blockOffsets 4 build_keys.length (build_keys.length + 1) 0 = some (offs, stop) ∧
      scalarIndices build_keys.length (build_keys.length + 1) stop = some idx ∧
      (∀ j, j ∈ offs →
        j + 4 ≤ build_keys.length ∧ (vld1q_s32 build_keys j).isSome = true) ∧
      ∀ j, j ∈ idx → j < build_keys.length ∧ (build_keys[j]?).isSome = true) ∧
    (∃ idx : List Nat,
      scalarIndices build_keys.length (build_keys.length + 1) 0 = some idx ∧
      ∀ j, j ∈ idx → j < build_keys.length ∧ (build_keys[j]?).isSome = true) ∧
    (∃ idx : List Nat,
      scalarIndices probe_keys.length (probe_keys.length + 1) 0 = some idx ∧
      ∀ i, i ∈ idx → i < probe_keys.length ∧ (probe_keys[i]?).isSome = true) ∧
    (∀ (fuel i : Nat) (s : ProbeState),
      avx2ProbeLoop probe_keys probe_keys.length build_keys build_keys.length fuel i s =
        (scalarIndices probe_keys.length fuel i).bind (fun idx =>
          foldSteps
            (probeBody (fun key s' => avx2ProbeKey key build_keys build_keys.length s')
              probe_keys) idx s)) ∧
    (∀ (fuel i : Nat) (s : ProbeState),
      scalarProbeLoop probe_keys probe_keys.length build_keys build_keys.length fuel i s =
        (scalarIndices probe_keys.length fuel i).bind (fun idx =>
          foldSteps
            (probeBody (fun key s' => scalarProbeKey key build_keys build_keys.length s')
              probe_keys) idx s)) ∧
    (∀ (fuel i : Nat) (m : List Nat),
      neonProbeLoop probe_keys probe_keys.length build_keys build_keys.length fuel i m =
        (scalarIndices probe_keys.length fuel i).bind (fun idx =>
          foldSteps
            (probeBody (fun key m' => neonProbeKey key build_keys build_keys.length m')
              probe_keys) idx m)) ∧
    (∀ (key : Int) (fuel j : Nat) (s : ProbeState),
      scalarInnerLoop key build_keys build_keys.length fuel j s =
        (scalarIndices build_keys.length fuel j).bind (fun idx =>
          foldSteps (scalarBody key build_keys) idx s)) ∧
    runProbe Strategy.avx2 [1] 1 [1, 2, 3] 9 [] = none ∧
    runProbe Strategy.scalar [1] 1 [1, 2, 3] 4 [] = none ∧
    runProbe Strategy.neon [1] 2 [1, 2, 3] 3 [] = none := by
  have hread : ∀ (l : List Int) (j : Nat), j < l.length → (l[j]?).isSome = true := by
    intro l j hj
    rw [key_read l j hj]
    rfl
  have hidx : ∀ (l : List Int) (start : Nat), ∃ idx : List Nat,
      scalarIndices l.length (l.length + 1) start = some idx ∧
      ∀ j, j ∈ idx → j < l.length ∧ (l[j]?).isSome = true := by
    intro l start
    have hrun := scalarIndices_eq l.length (l.length + 1) start (by omega)
    refine ⟨_, hrun, ?_⟩
    intro j hj
    have hlt := scalarIndices_bound _ _ _ _ hrun j hj
    exact ⟨hlt, hread l j hlt⟩
  refine ⟨⟨_, runProbe_eq st _ _ _ _ r (Nat.le_refl _) (Nat.le_refl _)⟩, ?_, hidx _ _, ?_,
    hidx _ _, hidx _ _, avx2ProbeLoop_fold _ _ _ _, scalarProbeLoop_fold _ _ _ _,
    neonProbeLoop_fold _ _ _ _, fun key => scalarInnerLoop_fold key _ _,
    by decide, by decide, by decide⟩
  · have hrun := blockOffsets_eq 8 build_keys.length (by decide) (build_keys.length + 1) 0
      (by omega)
    refine ⟨_, _, hrun, ?_⟩
    intro j hj
    have hle := blockOffsets_bound _ _ _ _ _ _ hrun j hj
    exact ⟨hle, by simp [mm256_loadu_si256, hle]⟩
  · have hrun := blockOffsets_eq 4 build_keys.length (by decide) (build_keys.length + 1) 0
      (by omega)
    obtain ⟨idx, hidx1, hidx2⟩ := hidx build_keys (0 + 4 * ((build_keys.length - 0) / 4))
    refine ⟨_, _, idx, hrun, hidx1, ?_, hidx2⟩
    intro j hj
    have hle := blockOffsets_bound _ _ _ _ _ _ hrun j hj
    exact ⟨hle, by simp [vld1q_s32, hle]⟩

/-- Witness for C12: three probe keys and ten build keys on the AVX2 path. -/
theorem no_out_of_range_read_witness :
    ∃ m : List Nat,
      runProbe Strategy.avx2 [3, 7, 3] ([3, 7, 3] : List Int).length
        [7, 3, 0, 0, 3, 0, 0, 7, 0, 7] ([7, 3, 0, 0, 3, 0, 0, 7, 0, 7] : List Int).length [] =
        some m :=
  (no_out_of_range_read Strategy.avx2 [3, 7, 3] [7, 3, 0, 0, 3, 0, 0, 7, 0, 7] []).1

/-- C13, counterexample: on `probe_keys = [5, 9]`, `build_keys = [1, 5, 5, 9, 2]`
the NEON function appends three entries, while its notice carries the two counts
2 and 5 and no match count. -/
theorem neon_notice_counterexample :
    VectorizedProbe_NEON [5, 9] 2 [1, 5, 5, 9, 2] 5 [] =
        some { matched_indices := [1, 2, 3], notice := Notice.neon 2 5 } ∧
      (Notice.neon 2 5).reportedMatches = none ∧
      (2 : Nat) ≠ ([1, 2, 3] : List Nat).length ∧
      (5 : Nat) ≠ ([1, 2, 3] : List Nat).length := by
  decide

/-- C13, amended: in the AVX2 path and in the scalar fallback the completion
notice carries a count that equals the number of entries the call appended to
the result sequence; the notice of the NEON path carries `probe_count` and
`table_count` and no match count. -/
theorem notice_reports_appended (probe_keys : List Int) (probe_count : Nat)
    (build_keys : List Int) (table_count : Nat) (r : List Nat)
    (hpc : probe_count ≤ probe_keys.length) (htc : table_count ≤ build_keys.length) :
    ∃ app : List Nat,
      VectorizedProbe_AVX2 true probe_keys probe_count build_keys table_count r =
        some { matched_indices := r ++ app, notice := Notice.simdAvx2 app.length } ∧
      (Notice.simdAvx2 app.length).reportedMatches = some app.length ∧
      VectorizedProbe_AVX2 false probe_keys probe_count build_keys table_count r =
        some { matched_indices := r ++ app, notice := Notice.scalar app.length } ∧
      (Notice.scalar app.length).reportedMatches = some app.length ∧
      VectorizedProbe_NEON probe_keys probe_count build_keys table_count r =
        some { matched_indices := r ++ app, notice := Notice.neon probe_count table_count } ∧
      (Notice.neon probe_count table_count).reportedMatches = none :=
  ⟨allMatches probe_keys probe_count build_keys table_count,
    VectorizedProbe_AVX2_simd_eq _ _ _ _ _ hpc htc, rfl,
    VectorizedProbe_AVX2_scalar_eq _ _ _ _ _ hpc htc, rfl,
    VectorizedProbe_NEON_eq _ _ _ _ _ hpc htc, rfl⟩

/-- Witness for C13 amended: a result sequence that already holds two entries,
which the reported count leaves out. -/
theorem notice_reports_appended_witness :
    ∃ app : List Nat,
      VectorizedProbe_AVX2 true [5, 9] 2 [1, 5, 5, 9, 2] 5 [40, 41] =
        some { matched_indices := [40, 41] ++ app, notice := Notice.simdAvx2 app.length } ∧
      (Notice.simdAvx2 app.length).reportedMatches = some app.length ∧
      VectorizedProbe_AVX2 false [5, 9] 2 [1, 5, 5, 9, 2] 5 [40, 41] =
        some { matched_indices := [40, 41] ++ app, notice := Notice.scalar app.length } ∧
      (Notice.scalar app.length).reportedMatches = some app.length ∧
      VectorizedProbe_NEON [5, 9] 2 [1, 5, 5, 9, 2] 5 [40, 41] =
        some { matched_indices := [40, 41] ++ app, notice := Notice.neon 2 5 } ∧
      (Notice.neon 2 5).reportedMatches = none :=
  notice_reports_appended [5, 9] 2 [1, 5, 5, 9, 2] 5 [40, 41] (by decide) (by decide)

/-- C14 (AVX2 mask-to-lane decoding): for every probe key and every block of 8
build keys loaded at `block_start`, with `mask` the move-mask of the lane-wise
comparison (a 32-bit pattern), the test `mask & (0xF << (4 * k))`, shift taken
modulo `2^32`, is non-zero exactly when `build_keys[block_start + k] == probe_key`,
for every lane `k` in `0 .. 7`; the block appends `block_start + k` once for each
matching lane and nothing else, hence at most 8 indices.  A match in lane 7 alone
gives the mask `0xF0000000`, whose top bit is the sign bit, and is decoded. -/
theorem avx2_mask_decoding (probe_key : Int) (build_keys : List Int) (block_start : Nat)
    (s : ProbeState) (h : block_start + 8 ≤ build_keys.length) :
    (∃ (table_vec : List Int) (mask : Nat) (app : List Nat),
      mm256_loadu_si256 build_keys block_start = some table_vec ∧
      mask = mm256_movemask_epi8
        (mm256_cmpeq_epi32 (mm256_set1_epi32 probe_key) table_vec) ∧
      mask < 2 ^ 32 ∧
      (∀ k, k < 8 →
        (laneTest mask k = true ↔ build_keys[block_start + k]? = some probe_key)) ∧
      avx2Block (mm256_set1_epi32 probe_key) build_keys block_start s =
        some (s.recordAll app) ∧
      (∀ k, k < 8 →
        app.count (block_start + k) =
          if build_keys[block_start + k]? = some probe_key then 1 else 0) ∧
      (∀ x, x ∈ app → ∃ k, k < 8 ∧ x = block_start + k) ∧
      app.length ≤ 8) ∧
    mm256_movemask_epi8
        (mm256_cmpeq_epi32 (mm256_set1_epi32 (-3)) [0, 0, 0, 0, 0, 0, 0, -3]) = 0xF0000000 ∧
    laneTest 0xF0000000 7 = true ∧
    (∀ k, k < 7 → laneTest 0xF0000000 k = false) := by
  refine ⟨⟨(build_keys.drop block_start).take 8, _,
    (List.range' block_start 8).filter (fun x => build_keys[x]? = some probe_key),
    by simp [mm256_loadu_si256, h], rfl, movemask_block_lt probe_key build_keys block_start h,
    ?_, avx2Block_eq probe_key build_keys block_start s h, ?_, ?_, ?_⟩, by decide, by decide,
    by decide⟩
  · intro k hk
    rw [laneTest_block probe_key build_keys block_start h k hk, decide_eq_true_iff]
  · intro k hk
    have hnd : ((List.range' block_start 8).filter
        (fun x => decide (build_keys[x]? = some probe_key))).Nodup :=
      (List.nodup_range' block_start 8).filter _
    by_cases hm : build_keys[block_start + k]? = some probe_key
    · rw [if_pos hm]
      apply List.count_eq_one_of_mem hnd
      rw [List.mem_filter, List.mem_range'_1]
      exact ⟨⟨by omega, by omega⟩, by simpa using hm⟩
    · rw [if_neg hm]
      apply List.count_eq_zero_of_not_mem
      rw [List.mem_filter]
      rintro ⟨_, h2⟩
      exact hm (by simpa using h2)
  · intro x hx
    have hr := (List.mem_filter.mp hx).1
    rw [List.mem_range'_1] at hr
    exact ⟨x - block_start, by omega, by omega⟩
  · have := List.length_filter_le (fun x => decide (build_keys[x]? = some probe_key))
      (List.range' block_start 8)
    simpa using this

/-- Witness for C14: the block at offset 1 of a nine-element array, probe key 6
matching its lanes 0, 5 and 7. -/
theorem avx2_mask_decoding_witness :
    ∃ (table_vec : List Int) (mask : Nat) (app : List Nat),
      mm256_loadu_si256 [6, 6, 1, 2, 3, 4, 6, 5, 6] 1 = some table_vec ∧
      mask = mm256_movemask_epi8 (mm256_cmpeq_epi32 (mm256_set1_epi32 6) table_vec) ∧
      mask < 2 ^ 32 ∧
      (∀ k, k < 8 →
        (laneTest mask k = true ↔ ([6, 6, 1, 2, 3, 4, 6, 5, 6] : List Int)[1 + k]? = some 6)) ∧
      avx2Block (mm256_set1_epi32 6) [6, 6, 1, 2, 3, 4, 6, 5, 6] 1
          { matched_indices := [], total_matches := 0 } =
        some (ProbeState.recordAll { matched_indices := [], total_matches := 0 } app) ∧
      (∀ k, k < 8 →
        app.count (1 + k) =
          if ([6, 6, 1, 2, 3, 4, 6, 5, 6] : List Int)[1 + k]? = some 6 then 1 else 0) ∧
      (∀ x, x ∈ app → ∃ k, k < 8 ∧ x = 1 + k) ∧
      app.length ≤ 8 :=
  (avx2_mask_decoding 6 [6, 6, 1, 2, 3, 4, 6, 5, 6] 1
    { matched_indices := [], total_matches := 0 } (by decide)).1

/-- C16: the result sequence does not determine which probe key produced each
entry: with `build_keys = [5]`, the probe arrays `[5, 7]` and `[7, 5]` have
different sets of matching (probe index, build index) pairs, `(0, 0)` against
`(1, 0)`, and every strategy appends the same result sequence `[0]` for both. -/
theorem probe_index_not_recoverable (st : Strategy) :
    runProbe st [5, 7] 2 [5] 1 [] = some [0] ∧
      runProbe st [7, 5] 2 [5] 1 [] = some [0] ∧
      matchPairs [5, 7] 2 [5] 1 = [(0, 0)] ∧
      matchPairs [7, 5] 2 [5] 1 = [(1, 0)] ∧
      (0, 0) ∈ matchPairs [5, 7] 2 [5] 1 ∧
      (0, 0) ∉ matchPairs [7, 5] 2 [5] 1 := by
  cases st <;> decide

/-- C17 (probe-sequence homomorphism): for every build array, probe arrays `p1`
and `p2` and initial result sequence `r`, in every strategy, the call on
`p1 ++ p2` leaves `r` followed by what the call on `p1` appends and then what
the call on `p2` appends, which is also what the call on `p1` followed by the
call on `p2` on the same result sequence leaves. -/
theorem probe_concat (st : Strategy) (p1 p2 : List Int) (build_keys : List Int)
    (table_count : Nat) (r : List Nat) (htc : table_count ≤ build_keys.length) :
    ∃ m1 m2 : List Nat,
      runProbe st p1 p1.length build_keys table_count [] = some m1 ∧
      runProbe st p2 p2.length build_keys table_count [] = some m2 ∧
      runProbe st (p1 ++ p2) (p1.length + p2.length) build_keys table_count r =
        some (r ++ m1 ++ m2) ∧
      (runProbe st p1 p1.length build_keys table_count r).bind
        (fun r' => runProbe st p2 p2.length build_keys table_count r') =
        some (r ++ m1 ++ m2) := by
  refine ⟨allMatches p1 p1.length build_keys table_count,
    allMatches p2 p2.length build_keys table_count, ?_, ?_, ?_, ?_⟩
  · rw [runProbe_eq st _ _ _ _ _ (Nat.le_refl _) htc, List.nil_append]
  · rw [runProbe_eq st _ _ _ _ _ (Nat.le_refl _) htc, List.nil_append]
  · rw [runProbe_eq st _ _ _ _ _ (by simp) htc, allMatches_append, List.append_assoc]
  · rw [runProbe_eq st _ _ _ _ _ (Nat.le_refl _) htc, Option.some_bind,
      runProbe_eq st _ _ _ _ _ (Nat.le_refl _) htc]

/-- Witness for C17: `[5, 9] ++ [2, 5]` against five build keys on the NEON
path. -/
theorem probe_concat_witness :
    ∃ m1 m2 : List Nat,
      runProbe Strategy.neon [5, 9] ([5, 9] : List Int).length [1, 5, 5, 9, 2] 5 [] =
        some m1 ∧
      runProbe Strategy.neon [2, 5] ([2, 5] : List Int).length [1, 5, 5, 9, 2] 5 [] =
        some m2 ∧
      runProbe Strategy.neon ([5, 9] ++ [2, 5])
          (([5, 9] : List Int).length + ([2, 5] : List Int).length) [1, 5, 5, 9, 2] 5 [7] =
        some ([7] ++ m1 ++ m2) ∧
      (runProbe Strategy.neon [5, 9] ([5, 9] : List Int).length [1, 5, 5, 9, 2] 5 [7]).bind
        (fun r' =>
          runProbe Strategy.neon [2, 5] ([2, 5] : List Int).length [1, 5, 5, 9, 2] 5 r') =
        some ([7] ++ m1 ++ m2) :=
  probe_concat Strategy.neon [5, 9] [2, 5] [1, 5, 5, 9, 2] 5 [7] (by decide)

/-- C18 (pair count): in every strategy the entries one call appends are the
build components of the matching pairs `(i, j)`, `i < probe_count`,
`j < table_count`, `build_keys[j] == probe_keys[i]`, listed without repetition,
so their number is the number of such pairs; a build index is appended as many
times as its key occurs among the first `probe_count` probe keys; and the number
of appended entries is at most `probe_count * table_count`. -/
theorem pair_count (st : Strategy) (probe_keys : List Int) (probe_count : Nat)
    (build_keys : List Int) (table_count : Nat) (r : List Nat)
    (hpc : probe_count ≤ probe_keys.length) (htc : table_count ≤ build_keys.length) :
    ∃ app : List Nat,
      runProbe st probe_keys probe_count build_keys table_count r = some (r ++ app) ∧
      app = (matchPairs probe_keys probe_count build_keys table_count).map Prod.snd ∧
      app.length = (matchPairs probe_keys probe_count build_keys table_count).length ∧
      (matchPairs probe_keys probe_count build_keys table_count).Nodup ∧
      (∀ i j, (i, j) ∈ matchPairs probe_keys probe_count build_keys table_count ↔
        i < probe_count ∧ j < table_count ∧ build_keys[j]? = probe_keys[i]?) ∧
      (∀ (j : Nat) (key : Int), j < table_count → build_keys[j]? = some key →
        app.count j = (probe_keys.take probe_count).count key) ∧
      app.length ≤ probe_count * table_count := by
  have hsnd := matchPairs_snd probe_keys build_keys table_count probe_count hpc
  refine ⟨allMatches probe_keys probe_count build_keys table_count,
    runProbe_eq st _ _ _ _ _ hpc htc, hsnd.symm, ?_, matchPairs_nodup _ _ _ _, ?_, ?_,
    allMatches_length_le _ _ _ _ hpc⟩
  · rw [← hsnd, List.length_map]
  · intro i j
    rw [mem_matchPairs]
    constructor
    · rintro ⟨hi, p, hp, hj, hkj⟩
      exact ⟨hi, hj, by rw [hkj, hp]⟩
    · rintro ⟨hi, hj, heq⟩
      have hlt : i < probe_keys.length := by omega
      exact ⟨hi, probe_keys[i], key_read probe_keys i hlt, hj,
        by rw [heq, key_read probe_keys i hlt]⟩
  · intro j key hj hkey
    exact count_segments build_keys table_count j key hj hkey _

/-- Witness for C18: the probe key 5 given twice; build indices 1 and 2 are each
appended twice. -/
theorem pair_count_witness :
    ∃ app : List Nat,
      runProbe Strategy.avx2 [5, 9, 5] 3 [1, 5, 5, 9, 2] 5 [] = some ([] ++ app) ∧
      app = (matchPairs [5, 9, 5] 3 [1, 5, 5, 9, 2] 5).map Prod.snd ∧
      app.length = (matchPairs [5, 9, 5] 3 [1, 5, 5, 9, 2] 5).length ∧
      (matchPairs [5, 9, 5] 3 [1, 5, 5, 9, 2] 5).Nodup ∧
      (∀ i j, (i, j) ∈ matchPairs [5, 9, 5] 3 [1, 5, 5, 9, 2] 5 ↔
        i < 3 ∧ j < 5 ∧
          ([1, 5, 5, 9, 2] : List Int)[j]? = ([5, 9, 5] : List Int)[i]?) ∧
      (∀ (j : Nat) (key : Int), j < 5 → ([1, 5, 5, 9, 2] : List Int)[j]? = some key →
        app.count j = (([5, 9, 5] : List Int).take 3).count key) ∧
      app.length ≤ 3 * 5 :=
  pair_count Strategy.avx2 [5, 9, 5] 3 [1, 5, 5, 9, 2] 5 [] (by decide) (by decide)

end duckdb
